import Mathlib

/-!
Verification of the Aegis firewall plugin (gatekeeper, vault, sanitizer
walker, prompt-hint builder) against its natural-language specification.

The development shallowly embeds the TypeScript sources:

* `src/extensions/aegis/src/vault.ts`      — `SecretVault` (inject / scrub)
* `src/extensions/aegis/src/sanitizer.ts`  — the deep string walker
* `src/extensions/aegis/src/defaults.ts`   — `DEFAULT_AEGIS_CONFIG.rules`
* `src/extensions/aegis/index.ts`          — `deepMergeToolRules`
* the gatekeeper module (`Gatekeeper.check`, `resolveRuleSet`,
  `normalizeToolName`, tool groups and aliases, circuit breaker)
* the system-prompt hint builder (`buildSystemPromptHint`)

JavaScript strings are embedded as `String`/`List Char`; JS objects and
`Map`s as ordered association lists (`List (String × _)`), with JS `Map`
lookup semantics (the *last* `set` for a key wins) modelled explicitly.
`Date.now()` is modelled as an explicit `now : Int` parameter; the two
reads of the clock inside one `check` call are identified.

Regular expressions: the rule patterns are kept verbatim as strings and
compiled by `tryCompileRegex` into a small regex AST covering the
constructs the verified claims exercise (literals, escapes, `.`, `*`,
`+`, `?`, and the `^`/`$` anchors).  Constructs outside this dialect
fail to compile, and the gatekeeper drops them exactly as the source
drops patterns that `new RegExp` rejects.  Matching (`RegExp.test`) is
"some substring matches", implemented with Brzozowski derivatives.
-/

namespace Aegis

/-- Braces, written escaped so they can be spliced into strings. -/
def lbrace : String := "\x7b"

/-- Closing brace as a string. -/
def rbrace : String := "\x7d"

/-! ## JS object / Map helpers -/

/-- Property read on a JS object embedded as an ordered association
list.  JS object keys are unique, so the first match is the value. -/
def objGet {α : Type} (o : List (String × α)) (k : String) : Option α :=
  (o.find? (fun p => p.1 = k)).map (·.2)

/-- Property write on a JS object: replacing an existing key keeps its
position, a new key is appended. -/
def objSet {α : Type} (o : List (String × α)) (k : String) (v : α) :
    List (String × α) :=
  if o.any (fun p => p.1 = k) then
    o.map (fun p => if p.1 = k then (k, v) else p)
  else
    o ++ [(k, v)]

/-- `Map.get` for a JS `Map` built from an entry list (`new Map(entries)`):
each entry is `set` in order, so for duplicate keys the *last* entry wins. -/
def jsMapGet {κ α : Type} [DecidableEq κ] (entries : List (κ × α)) (k : κ) :
    Option α :=
  (entries.reverse.find? (fun p => p.1 = k)).map (·.2)

/-- Key list of a JS `Map` built from an entry list: iteration order is
first-insertion order, duplicates collapsed. -/
def jsMapKeys {α : Type} (entries : List (String × α)) : List String :=
  (entries.map (·.1)).eraseDups

/-- Substring test on character lists (used to state "contains"). -/
def containsSub (needle hay : List Char) : Bool :=
  match hay with
  | [] => needle.isEmpty
  | _ :: t => needle.isPrefixOf hay || containsSub needle t

/-! ## A small regex engine

`RegExp.test` semantics for the dialect of patterns the claims
evaluate.  `dot` is JS `.` (any char except line terminators); `wild`
is used only to pad unanchored patterns and accepts every character. -/

inductive Regex : Type where
  | fail : Regex
  | emp : Regex
  | lit : Char → Regex
  | dot : Regex
  | wild : Regex
  | seq : Regex → Regex → Regex
  | alt : Regex → Regex → Regex
  | star : Regex → Regex
deriving Repr, DecidableEq

/-- Does the regex accept the empty string? -/
def Regex.nullable : Regex → Bool
  | .fail => false
  | .emp => true
  | .lit _ => false
  | .dot => false
  | .wild => false
  | .seq a b => a.nullable && b.nullable
  | .alt a b => a.nullable || b.nullable
  | .star _ => true

/-- JS `.` matches any character except the four line terminators. -/
def isDotChar (c : Char) : Bool :=
  !(c = '\n' || c = '\r' || c = (Char.ofNat 0x2028) || c = (Char.ofNat 0x2029))

/-- Brzozowski derivative. -/
def Regex.deriv : Regex → Char → Regex
  | .fail, _ => .fail
  | .emp, _ => .fail
  | .lit c, x => if x = c then .emp else .fail
  | .dot, x => if isDotChar x then .emp else .fail
  | .wild, _ => .emp
  | .seq a b, x =>
      if a.nullable then .alt (.seq (a.deriv x) b) (b.deriv x)
      else .seq (a.deriv x) b
  | .alt a b, x => .alt (a.deriv x) (b.deriv x)
  | .star a, x => .seq (a.deriv x) (.star a)

/-- Whole-string match via iterated derivatives. -/
def Regex.matchFull (r : Regex) (s : List Char) : Bool :=
  (s.foldl Regex.deriv r).nullable

/-- A compiled pattern: the body plus the two anchors. -/
structure CRegex : Type where
  anchorStart : Bool
  anchorEnd : Bool
  re : Regex
deriving Repr, DecidableEq

/-- `RegExp.test`: pad the un-anchored sides with `wild*` and do a whole
string match, i.e. "some substring (at a position compatible with the
anchors) matches". -/
def CRegex.test (r : CRegex) (s : String) : Bool :=
  let padded :=
    let l := if r.anchorStart then r.re else .seq (.star .wild) r.re
    if r.anchorEnd then l else .seq l (.star .wild)
  padded.matchFull s.data

/-- Escape sequences `\c` that denote a single literal character in the
modelled dialect.  The class/assertion escapes (`\s`, `\b`, `\d`, `\w`
and their negations) are outside the dialect. -/
def unescapeChar (c : Char) : Option Char :=
  if c = 'n' then some '\n'
  else if c = 't' then some '\t'
  else if c = 'r' then some '\r'
  else if c = 's' || c = 'S' || c = 'd' || c = 'D' || c = 'w' || c = 'W'
       || c = 'b' || c = 'B' then none
  else some c

/-- Characters that are regex metacharacters outside the modelled
dialect when they appear unescaped. -/
def isUnsupportedMeta (c : Char) : Bool :=
  c = '(' || c = ')' || c = '[' || c = ']' || c = '|'
    || c = '^' || c = '$' || c = (Char.ofNat 0x7b) || c = (Char.ofNat 0x7d)

/-- The three postfix quantifier characters. -/
def isQuantChar (c : Char) : Bool := c = '*' || c = '+' || c = '?'

/-- The quantifier character following an atom, if any. -/
def quantHead : List Char → Option Char
  | [] => none
  | c :: _ => if isQuantChar c then some c else none

/-- The input remaining after an optional postfix quantifier. -/
def quantRest : List Char → List Char
  | [] => []
  | c :: r => if isQuantChar c then r else c :: r

/-- Apply a postfix quantifier to the atom `a`. -/
def applyQuant (a : Regex) : Option Char → Regex
  | some '*' => .star a
  | some '+' => .seq a (.star a)
  | some '?' => .alt a .emp
  | _ => a

/-- Parse a sequence of atoms with postfix quantifiers.  Returns `none`
on constructs outside the dialect (mirroring a pattern `new RegExp`
would reject only in the sense that the caller drops it).  The `fuel`
argument makes the recursion structural (each step consumes at least
one character, so `s.length + 1` fuel always suffices). -/
def parseSeqF : Nat → List Char → Option Regex
  | 0, _ => none
  | _ + 1, [] => some .emp
  | _ + 1, '\\' :: [] => none
  | fuel + 1, '\\' :: c :: rest =>
      match unescapeChar c with
      | none => none
      | some ch =>
          (parseSeqF fuel (quantRest rest)).map
            (fun tail => .seq (applyQuant (.lit ch) (quantHead rest)) tail)
  | fuel + 1, '.' :: rest =>
      (parseSeqF fuel (quantRest rest)).map
        (fun tail => .seq (applyQuant .dot (quantHead rest)) tail)
  | fuel + 1, c :: rest =>
      if isUnsupportedMeta c || isQuantChar c then none
      else
        (parseSeqF fuel (quantRest rest)).map
          (fun tail => .seq (applyQuant (.lit c) (quantHead rest)) tail)

def parseSeq (s : List Char) : Option Regex := parseSeqF (s.length + 1) s

/-- Compile a pattern string: strip the `^`/`$` anchors, parse the body. -/
def compileRegex (pattern : String) : Option CRegex :=
  let cs := pattern.data
  let (aStart, cs) := match cs with
    | '^' :: rest => (true, rest)
    | _ => (false, cs)
  let (aEnd, cs) :=
    match cs.reverse with
    | '$' :: '\\' :: _ => (false, cs)
    | '$' :: rest => (true, rest.reverse)
    | _ => (false, cs)
  (parseSeq cs).map (fun r => { anchorStart := aStart, anchorEnd := aEnd, re := r })

/-! ## JSON values and `JSON.stringify` -/

inductive JVal : Type where
  | null : JVal
  | bool : Bool → JVal
  | num : Int → JVal
  | str : String → JVal
  | arr : List JVal → JVal
  | obj : List (String × JVal) → JVal

/-- Two-digit lowercase hex of a byte (for JSON control escapes). -/
def hexDigit (n : Nat) : Char :=
  if n < 10 then Char.ofNat ('0'.toNat + n) else Char.ofNat ('a'.toNat + (n - 10))

/-- JSON string escaping as `JSON.stringify` performs it. -/
def escapeJsonChar (c : Char) : List Char :=
  if c = '"' then ['\\', '"']
  else if c = '\\' then ['\\', '\\']
  else if c = '\n' then ['\\', 'n']
  else if c = '\t' then ['\\', 't']
  else if c = '\r' then ['\\', 'r']
  else if c = (Char.ofNat 8) then ['\\', 'b']
  else if c = (Char.ofNat 12) then ['\\', 'f']
  else if c.toNat < 0x20 then
    ['\\', 'u', '0', '0', hexDigit (c.toNat / 16), hexDigit (c.toNat % 16)]
  else [c]

/-- Quoted JSON string literal. -/
def jsonQuote (s : String) : List Char :=
  '"' :: (s.data.flatMap escapeJsonChar) ++ ['"']

mutual
/-- `JSON.stringify` (no spacing). -/
def stringify : JVal → List Char
  | .null => "null".data
  | .bool true => "true".data
  | .bool false => "false".data
  | .num n => (toString n).data
  | .str s => jsonQuote s
  | .arr xs => '[' :: stringifyList xs ++ [']']
  | .obj fs => (Char.ofNat 0x7b) :: stringifyFields fs ++ [Char.ofNat 0x7d]

def stringifyList : List JVal → List Char
  | [] => []
  | [x] => stringify x
  | x :: xs => stringify x ++ ',' :: stringifyList xs

def stringifyFields : List (String × JVal) → List Char
  | [] => []
  | [(k, v)] => jsonQuote k ++ ':' :: stringify v
  | (k, v) :: fs => jsonQuote k ++ ':' :: stringify v ++ ',' :: stringifyFields fs
end

/-- Is this JSON value `null`? -/
def JVal.isNull : JVal → Bool
  | .null => true
  | _ => false

/-! ## Tool groups, aliases and name normalization (`patterns.ts`) -/

/-- Tool group definitions (`TOOL_GROUPS`). -/
def TOOL_GROUPS : List (String × List String) :=
  [("group:fs", ["read", "write", "edit", "apply_patch"]),
   ("group:runtime", ["exec", "process"]),
   ("group:web", ["web_search", "web_fetch"]),
   ("group:memory", ["memory_search", "memory_get"]),
   ("group:sessions",
     ["sessions_list", "sessions_history", "sessions_send", "sessions_spawn",
      "subagents", "session_status"]),
   ("group:ui", ["browser", "canvas"]),
   ("group:automation", ["cron", "gateway"]),
   ("group:messaging", ["message"])]

/-- Tool name aliases (`TOOL_ALIASES`). -/
def TOOL_ALIASES : List (String × String) :=
  [("bash", "exec"), ("shell", "exec"), ("run", "exec"), ("execute", "exec"),
   ("cmd", "exec"), ("command", "exec"), ("apply-patch", "apply_patch")]

/-- JS `String.prototype.trim`. -/
def jsTrim (s : List Char) : List Char :=
  ((s.dropWhile Char.isWhitespace).reverse.dropWhile Char.isWhitespace).reverse

/-- `normalizeToolName`: lowercase, trim, then apply the alias table. -/
def normalizeToolName (name : String) : String :=
  let lower := String.mk (jsTrim (name.data.map Char.toLower))
  (objGet TOOL_ALIASES lower).getD lower

/-! ## Case conversion between parameter-name casings -/

/-- `toCamelCase`: global replace of `_([a-z])` by the uppercased
capture (`file_path -> filePath`). -/
def toCamelCaseAux : List Char → List Char
  | [] => []
  | '_' :: c :: rest =>
      if c.isLower then c.toUpper :: toCamelCaseAux rest
      else '_' :: toCamelCaseAux (c :: rest)
  | c :: rest => c :: toCamelCaseAux rest

def toCamelCase (s : String) : String := String.mk (toCamelCaseAux s.data)

/-- `toSnakeCase`: global replace of `[A-Z]` by `_` plus the lowercased
letter (`filePath -> file_path`). -/
def toSnakeCase (s : String) : String :=
  String.mk (s.data.flatMap (fun c => if c.isUpper then ['_', c.toLower] else [c]))

/-! ## Rule configuration (`types.ts`) and compiled rule sets -/

structure ParamRules : Type where
  allow : Option (List String) := none
  deny : Option (List String) := none
deriving Repr, DecidableEq

structure ToolRuleSet : Type where
  allow : Option (List String) := none
  deny : Option (List String) := none
  paramRules : Option (List (String × ParamRules)) := none
  blockMessage : Option String := none
deriving Repr, DecidableEq

structure RulesConfig : Type where
  defaults : Option ToolRuleSet
  tools : List (String × ToolRuleSet)
deriving Repr, DecidableEq

inductive BreakerAction : Type where
  | suspend
  | warn
deriving Repr, DecidableEq

structure CircuitBreakerConfig : Type where
  maxBlocked : Nat
  windowMs : Nat
  action : BreakerAction
deriving Repr, DecidableEq

structure CompiledParamRules : Type where
  allow : Option (List CRegex)
  deny : Option (List CRegex)
deriving Repr, DecidableEq

structure CompiledToolRuleSet : Type where
  allow : Option (List CRegex)
  deny : Option (List CRegex)
  paramRules : Option (List (String × CompiledParamRules))
  blockMessage : Option String
deriving Repr, DecidableEq

/-- `tryCompileRegex`: compile or drop (the source catches the
`new RegExp` exception and returns `null`). -/
def tryCompileRegex (pattern : String) : Option CRegex := compileRegex pattern

/-- `compilePatterns`: `undefined` on an absent or empty list; compile
each pattern, dropping failures; `undefined` if nothing survived. -/
def compilePatterns (patterns : Option (List String)) : Option (List CRegex) :=
  match patterns with
  | none => none
  | some ps =>
      if ps.isEmpty then none
      else
        let compiled := ps.filterMap tryCompileRegex
        if compiled.isEmpty then none else some compiled

/-- `compileRuleSet`. -/
def compileRuleSet (rs : ToolRuleSet) : CompiledToolRuleSet :=
  { allow := compilePatterns rs.allow
    deny := compilePatterns rs.deny
    paramRules := rs.paramRules.map (fun prs =>
      prs.map (fun pr =>
        (pr.1, { allow := compilePatterns pr.2.allow
                 deny := compilePatterns pr.2.deny : CompiledParamRules })))
    blockMessage := rs.blockMessage }

/-! ## The Gatekeeper -/

structure GatekeeperResult : Type where
  allowed : Bool
  reason : Option String := none
deriving Repr, DecidableEq

structure Gatekeeper : Type where
  compiledDefaults : Option CompiledToolRuleSet
  compiledTools : List (String × CompiledToolRuleSet)
  circuitBreaker : Option CircuitBreakerConfig
deriving Repr, DecidableEq

/-- The constructor: pre-compile every rule set; the defaults are kept
only when they are non-trivial (`deny?.length || allow?.length ||
paramRules` in the source, where any object — even empty — is truthy). -/
def Gatekeeper.ofRules (rules : RulesConfig) (breaker : Option CircuitBreakerConfig) :
    Gatekeeper :=
  { compiledTools := rules.tools.map (fun t => (t.1, compileRuleSet t.2))
    compiledDefaults :=
      match rules.defaults with
      | none => none
      | some d =>
          if (d.deny.getD []).length ≠ 0 ∨ (d.allow.getD []).length ≠ 0
             ∨ d.paramRules.isSome then
            some (compileRuleSet d)
          else none
    circuitBreaker := breaker }

/-- `matchesAny`. -/
def matchesAny (value : String) (patterns : Option (List CRegex)) : Bool :=
  match patterns with
  | none => false
  | some ps => if ps.isEmpty then false else ps.any (fun re => re.test value)

/-- The allow-gate: blocks when an allow list is present, non-empty and
no pattern matches. -/
def allowGateBlocks (value : String) (allow : Option (List CRegex)) : Bool :=
  match allow with
  | none => false
  | some ps => !ps.isEmpty && !matchesAny value (some ps)

/-- `resolveRuleSet`: exact tool name → first group (in declared order)
that contains the tool *and* has a compiled rule set → defaults. -/
def Gatekeeper.resolveRuleSet (gk : Gatekeeper) (toolName : String) :
    Option CompiledToolRuleSet :=
  match objGet gk.compiledTools toolName with
  | some exact => some exact
  | none =>
      match TOOL_GROUPS.findSome?
          (fun gm => if toolName ∈ gm.2 then objGet gk.compiledTools gm.1 else none) with
      | some groupRule => some groupRule
      | none => gk.compiledDefaults

/-- Parameter-value lookup with key normalization: the rule-author's
key, then its camelCase, then its snake_case variant; `null` values
fall through (`??`) and a final nullish value is skipped. -/
def lookupParamValue (params : List (String × JVal)) (paramName : String) :
    Option JVal :=
  let get := fun (k : String) =>
    match objGet params k with
    | some v => if v.isNull then none else some v
    | none => none
  (get paramName).orElse (fun _ =>
    (get (toCamelCase paramName)).orElse (fun _ =>
      get (toSnakeCase paramName)))

/-- A parameter value as matched: strings are used directly, everything
else is `JSON.stringify`ed. -/
def valueStr : JVal → String
  | .str s => s
  | v => String.mk (stringify v)

/-- The per-parameter rule loop of `Gatekeeper.check`: the first
parameter rule that fires produces the block result. -/
def evalParamRules (toolName : String) (blockMessage : Option String)
    (params : List (String × JVal)) :
    List (String × CompiledParamRules) → Option GatekeeperResult
  | [] => none
  | (paramName, paramRule) :: rest =>
      match lookupParamValue params paramName with
      | none => evalParamRules toolName blockMessage params rest
      | some v =>
          let vStr := valueStr v
          if matchesAny vStr paramRule.deny then
            some { allowed := false
                   reason := some (blockMessage.getD
                     ("Tool \"" ++ toolName ++ "\" param \"" ++ paramName
                       ++ "\" blocked by Aegis deny rule.")) }
          else if allowGateBlocks vStr paramRule.allow then
            some { allowed := false
                   reason := some (blockMessage.getD
                     ("Tool \"" ++ toolName ++ "\" param \"" ++ paramName
                       ++ "\" blocked by Aegis — no allow rule matched.")) }
          else evalParamRules toolName blockMessage params rest

/-- `recordBlock`: push the current time iff a breaker is configured. -/
def recordBlock (breaker : Option CircuitBreakerConfig) (ts : List Int) (now : Int) :
    List Int :=
  if breaker.isSome then ts ++ [now] else ts

/-- Rule evaluation — the body of `Gatekeeper.check` after the breaker
step, threading the block-timestamp state. -/
def Gatekeeper.checkRules (gk : Gatekeeper) (ts : List Int) (toolName : String)
    (params : List (String × JVal)) (now : Int) : GatekeeperResult × List Int :=
  let normalized := normalizeToolName toolName
  match gk.resolveRuleSet normalized with
  | none => ({ allowed := true }, ts)
  | some ruleSet =>
      let paramString := String.mk (stringify (.obj params))
      if matchesAny paramString ruleSet.deny then
        ({ allowed := false
           reason := some (ruleSet.blockMessage.getD
             ("Tool \"" ++ toolName ++ "\" blocked by Aegis deny rule.")) },
         recordBlock gk.circuitBreaker ts now)
      else if allowGateBlocks paramString ruleSet.allow then
        ({ allowed := false
           reason := some (ruleSet.blockMessage.getD
             ("Tool \"" ++ toolName ++ "\" blocked by Aegis — no allow rule matched.")) },
         recordBlock gk.circuitBreaker ts now)
      else
        match ruleSet.paramRules with
        | none => ({ allowed := true }, ts)
        | some prs =>
            match evalParamRules toolName ruleSet.blockMessage params prs with
            | some res => (res, recordBlock gk.circuitBreaker ts now)
            | none => ({ allowed := true }, ts)

/-- The circuit-breaker suspension message. -/
def breakerMessage (count : Nat) (windowMs : Nat) : String :=
  "Aegis circuit breaker: " ++ toString count ++ " calls blocked in "
    ++ toString windowMs
    ++ "ms window. All tool calls suspended until window expires."

/-- `Gatekeeper.check`.  `Date.now()` is the explicit `now`; the
mutable `blockedTimestamps` field is threaded as `ts`. -/
def Gatekeeper.check (gk : Gatekeeper) (ts : List Int) (toolName : String)
    (params : List (String × JVal)) (now : Int) : GatekeeperResult × List Int :=
  match gk.circuitBreaker with
  | none => gk.checkRules ts toolName params now
  | some cb =>
      let windowStart : Int := now - cb.windowMs
      let pruned := ts.filter (fun t => windowStart < t)
      if pruned.length ≥ cb.maxBlocked ∧ cb.action = .suspend then
        ({ allowed := false
           reason := some (breakerMessage pruned.length cb.windowMs) }, pruned)
      else gk.checkRules pruned toolName params now

/-! ## The shipped default rules (`defaults.ts`, `DEFAULT_AEGIS_CONFIG.rules`) -/

/-- `DEFAULT_AEGIS_CONFIG.rules.tools.exec`. -/
def defaultExecRules : ToolRuleSet :=
  { deny := some [".*"]
    allow := some
      ["^ls\\b",
       "^git\\s+(status|log|diff|show|branch)",
       "^npm\\s+(test|run|list)",
       "^node\\s",
       "^echo\\b",
       "^cat\\b(?!.*\\.env)",
       "^pwd$",
       "^whoami$",
       "^date$",
       "^wc\\b",
       "^sort\\b",
       "^head\\b",
       "^tail\\b",
       "^grep\\b",
       "^find\\b",
       "^mkdir\\b",
       "^cp\\b",
       "^mv\\b"]
    paramRules := some
      [("command",
        { deny := some
            ["rm\\s+-rf\\s+/(?!tmp)",
             "curl.*\\|\\s*sh",
             "cat\\s+.*\\.env"] })]
    blockMessage := some
      "Shell command blocked by Aegis. Only safe, allow-listed commands are permitted." }

/-- `DEFAULT_AEGIS_CONFIG.rules.tools.read`. -/
def defaultReadRules : ToolRuleSet :=
  { deny := some [".*"]
    allow := some ["^\\.\\/", "^\\/workspace\\/"]
    paramRules := some
      [("file_path",
        { allow := some ["^\\.\\/", "^\\/workspace\\/"]
          deny := some
            ["\\.ssh\\/", "\\.env$", "\\/etc\\/shadow", "\\/etc\\/passwd",
             "\\.aws\\/", "\\/proc\\/"] }),
       ("filePath",
        { allow := some ["^\\.\\/", "^\\/workspace\\/"]
          deny := some
            ["\\.ssh\\/", "\\.env$", "\\/etc\\/shadow", "\\/etc\\/passwd",
             "\\.aws\\/", "\\/proc\\/"] })]
    blockMessage := some "File read blocked by Aegis. Only workspace paths are permitted." }

/-- `DEFAULT_AEGIS_CONFIG.rules.tools.write`. -/
def defaultWriteRules : ToolRuleSet :=
  { deny := some [".*"]
    allow := some ["^\\.\\/", "^\\/workspace\\/"]
    paramRules := some
      [("file_path",
        { allow := some ["^\\.\\/", "^\\/workspace\\/"]
          deny := some
            ["^\\/etc\\/", "^\\/usr\\/", "\\.ssh\\/", "\\.env$", "^\\/proc\\/",
             "^\\/sys\\/"] }),
       ("filePath",
        { allow := some ["^\\.\\/", "^\\/workspace\\/"]
          deny := some
            ["^\\/etc\\/", "^\\/usr\\/", "\\.ssh\\/", "\\.env$", "^\\/proc\\/",
             "^\\/sys\\/"] })]
    blockMessage := some "File write blocked by Aegis. Target path is restricted." }

/-- `DEFAULT_AEGIS_CONFIG.rules.tools.web_fetch`. -/
def defaultWebFetchRules : ToolRuleSet :=
  { paramRules := some
      [("url",
        { deny := some
            ["127\\.", "localhost", "169\\.254\\.", "0\\.0\\.0\\.0",
             "\\[::1\\]", "\\[::\\]",
             "10\\.", "172\\.1[6-9]\\.", "172\\.2[0-9]\\.", "172\\.3[01]\\.",
             "192\\.168\\.",
             "metadata\\.google\\.", "metadata\\.aws\\.internal",
             "2130706433", "0x7f", "0177\\.",
             "^file:\\/\\/", "^gopher:\\/\\/", "^dict:\\/\\/"] })]
    blockMessage :=
      some "URL blocked by Aegis. Internal/metadata endpoints and dangerous protocols are restricted." }

/-- `DEFAULT_AEGIS_CONFIG.rules.tools.sessions_send`. -/
def defaultSessionsSendRules : ToolRuleSet :=
  { deny := some [".*"]
    blockMessage :=
      some "Session send blocked by Aegis. Session messaging must be explicitly allowed in config." }

/-- `DEFAULT_AEGIS_CONFIG.rules.tools.sessions_spawn`. -/
def defaultSessionsSpawnRules : ToolRuleSet :=
  { deny := some [".*"]
    blockMessage :=
      some "Session spawn blocked by Aegis. Session spawning must be explicitly allowed in config." }

/-- `DEFAULT_AEGIS_CONFIG.rules`. -/
def DEFAULT_RULES : RulesConfig :=
  { defaults := some { deny := some [] }
    tools :=
      [("exec", defaultExecRules),
       ("read", defaultReadRules),
       ("write", defaultWriteRules),
       ("web_fetch", defaultWebFetchRules),
       ("sessions_send", defaultSessionsSendRules),
       ("sessions_spawn", defaultSessionsSpawnRules)] }

/-- The gatekeeper the plugin builds when the user supplies no rules of
their own and no circuit breaker (`DEFAULT_AEGIS_CONFIG`). -/
def defaultGatekeeper : Gatekeeper := Gatekeeper.ofRules DEFAULT_RULES none

/-! ## Rule-set merge (`index.ts`, `deepMergeToolRules`) -/

/-- Parameter-rule merge: deny lists are concatenated (defaults first),
the user's allow list replaces the default one if present. -/
def mergeParamRule (defaultParamRule userParamRule : ParamRules) : ParamRules :=
  { deny := some ((defaultParamRule.deny.getD []) ++ (userParamRule.deny.getD []))
    allow := userParamRule.allow.orElse (fun _ => defaultParamRule.allow) }

/-- One step of the merge loops of `deepMergeToolRules` (shared shape
of its tool-level and parameter-level loop bodies): an entry without a
default is taken as-is, an entry with a default is merged. -/
def mergeFoldStep {α : Type} (merge : α → α → α) (acc : List (String × α))
    (u : String × α) : List (String × α) :=
  match objGet acc u.1 with
  | none => objSet acc u.1 u.2
  | some d => objSet acc u.1 (merge d u.2)

/-- Tool-rule merge for one tool that has both a default and a user rule. -/
def mergeToolRule (defaultRule userRule : ToolRuleSet) : ToolRuleSet :=
  let mergedDeny := (defaultRule.deny.getD []) ++ (userRule.deny.getD [])
  let mergedAllow := userRule.allow.orElse (fun _ => defaultRule.allow)
  let mergedParamRules :=
    (userRule.paramRules.getD []).foldl (mergeFoldStep mergeParamRule)
      (defaultRule.paramRules.getD [])
  { deny := if mergedDeny.length > 0 then some mergedDeny else none
    allow := mergedAllow
    paramRules := if mergedParamRules.length > 0 then some mergedParamRules else none
    blockMessage := userRule.blockMessage.orElse (fun _ => defaultRule.blockMessage) }

/-- `deepMergeToolRules`: user tools without a default are taken as-is,
tools with a default are merged by `mergeToolRule`. -/
def deepMergeToolRules (defaultRules : List (String × ToolRuleSet))
    (userRules : Option (List (String × ToolRuleSet))) : List (String × ToolRuleSet) :=
  match userRules with
  | none => defaultRules
  | some urs => urs.foldl (mergeFoldStep mergeToolRule) defaultRules

/-! ## Byte-level encoders (for the vault's encoding-aware scrub)

`Buffer.from(value).toString("base64" | "hex")` over the UTF-8 bytes;
bytes are plain `Nat`s below 256. -/

/-- UTF-8 encoding of one character. -/
def utf8Bytes (c : Char) : List Nat :=
  let n := c.toNat
  if n < 0x80 then [n]
  else if n < 0x800 then [0xC0 + n / 64, 0x80 + n % 64]
  else if n < 0x10000 then [0xE0 + n / 4096, 0x80 + (n / 64) % 64, 0x80 + n % 64]
  else [0xF0 + n / 262144, 0x80 + (n / 4096) % 64, 0x80 + (n / 64) % 64, 0x80 + n % 64]

/-- UTF-8 bytes of a string. -/
def strUtf8 (s : String) : List Nat := s.data.flatMap utf8Bytes

/-- The standard base64 alphabet (with `+` and `/`). -/
def b64Char (n : Nat) : Char :=
  "ABCDEFGHIJKLMNOPQRSTUVWXYZabcdefghijklmnopqrstuvwxyz0123456789+/".data.getD n 'A'

/-- Standard base64 with `=` padding, three input bytes at a time. -/
def b64Chunks : List Nat → List Char
  | [] => []
  | [a] => [b64Char (a / 4), b64Char ((a % 4) * 16), '=', '=']
  | [a, b] => [b64Char (a / 4), b64Char ((a % 4) * 16 + b / 16), b64Char ((b % 16) * 4), '=']
  | a :: b :: c :: rest =>
      [b64Char (a / 4), b64Char ((a % 4) * 16 + b / 16),
       b64Char ((b % 16) * 4 + c / 64), b64Char (c % 64)] ++ b64Chunks rest

/-- `Buffer.from(s).toString("base64")`. -/
def b64encode (s : String) : List Char := b64Chunks (strUtf8 s)

/-- Two lowercase hex digits of a byte. -/
def hexByte (n : Nat) : List Char := [hexDigit (n / 16), hexDigit (n % 16)]

/-- `Buffer.from(s).toString("hex")` (lowercase). -/
def hexEncode (s : String) : List Char := (strUtf8 s).flatMap hexByte

/-! ## The vault (`vault.ts`, `SecretVault`)

A vault configuration is the ordered entry list of the `vault` config
object (`Object.entries(config)`); object keys are unique. -/

/-- `\x7b\x7bNAME\x7d\x7d` — the placeholder form of a name. -/
def placeholderForm (name : String) : String :=
  lbrace ++ lbrace ++ name ++ rbrace ++ rbrace

/-- One entry of the vault's reverse index. -/
structure RevEntry : Type where
  value : List Char
  placeholder : String
deriving Repr, DecidableEq

/-- Stable insertion (descending by value length): an element is placed
before the first element whose value is not longer. -/
def insertByLenDesc (x : RevEntry) : List RevEntry → List RevEntry
  | [] => [x]
  | y :: ys =>
      if x.value.length < y.value.length then y :: insertByLenDesc x ys
      else x :: y :: ys

/-- Stable sort, descending by value length — the semantics of the
source's `sort((a, b) => b.value.length - a.value.length)`
(`Array.prototype.sort` is stable). -/
def sortByLenDesc : List RevEntry → List RevEntry
  | [] => []
  | x :: xs => insertByLenDesc x (sortByLenDesc xs)

/-- `SecretVault.reverseEntries`: non-empty values, longest first. -/
def reverseEntries (config : List (String × String)) : List RevEntry :=
  sortByLenDesc
    ((config.filter (fun e => e.2.length > 0)).map
      (fun e => { value := e.2.data, placeholder := e.1 }))

/-- The entry list of `SecretVault.reverseLookup`
(`value -> \x7b\x7bNAME\x7d\x7d`). -/
def reverseLookupPairs (config : List (String × String)) :
    List (List Char × List Char) :=
  (reverseEntries config).map
    (fun e => (e.value, (placeholderForm e.placeholder).data))

/-- `this.reverseLookup.get(match) ?? match`. -/
def lookupRepl (config : List (String × String)) (v : List Char) : List Char :=
  (jsMapGet (reverseLookupPairs config) v).getD v

/-- The first reverse entry whose (escaped, hence literal) value matches
at the current position — JS alternation tries the alternatives in
order at each position. -/
def findMatchEntry (es : List RevEntry) (s : List Char) : Option RevEntry :=
  es.find? (fun e => e.value.isPrefixOf s)

/-- The global-replace scan of `text.replace(this.scrubRegex, ...)` for
an alternation of literals: leftmost match, first alternative wins,
continue after the match.  Structural in `fuel`; every matched value is
non-empty, so `s.length` fuel suffices. -/
def scrubScanF (es : List RevEntry) (lk : List Char → List Char) :
    Nat → List Char → List Char
  | 0, s => s
  | _, [] => []
  | fuel + 1, c :: cs =>
      match findMatchEntry es (c :: cs) with
      | some e => lk e.value ++ scrubScanF es lk fuel (cs.drop (e.value.length - 1))
      | none => c :: scrubScanF es lk fuel cs

/-- The literal pass of `SecretVault.scrub`. -/
def scrubScan (es : List RevEntry) (lk : List Char → List Char)
    (s : List Char) : List Char :=
  scrubScanF es lk s.length s

/-- Case-insensitive-optional character comparison (the hex matcher is
compiled with the `i` flag). -/
def charMatches (ci : Bool) (a b : Char) : Bool :=
  if ci then a.toLower = b.toLower else a = b

/-- Prefix test under `charMatches`. -/
def isPrefixCI (ci : Bool) : List Char → List Char → Bool
  | [], _ => true
  | _ :: _, [] => false
  | a :: as, b :: bs => charMatches ci a b && isPrefixCI ci as bs

/-- Global replace of an escaped-literal pattern (the encoding
matchers): replace every non-overlapping occurrence, left to right. -/
def replaceAllLitF (ci : Bool) (pat repl : List Char) :
    Nat → List Char → List Char
  | 0, s => s
  | _, [] => []
  | fuel + 1, c :: cs =>
      if pat.isEmpty then c :: cs
      else if isPrefixCI ci pat (c :: cs) then
        repl ++ replaceAllLitF ci pat repl fuel (cs.drop (pat.length - 1))
      else c :: replaceAllLitF ci pat repl fuel cs

def replaceAllLit (ci : Bool) (pat repl s : List Char) : List Char :=
  replaceAllLitF ci pat repl s.length s

/-- One compiled encoding matcher of `SecretVault.encodedEntries`. -/
structure EncodedEntry : Type where
  ci : Bool
  pattern : List Char
  placeholder : List Char
deriving Repr, DecidableEq

/-- `SecretVault.encodedEntries`: for every reverse entry of length at
least 8, the escaped base64 form and the escaped lowercase hex form
(matched case-insensitively), in reverse-entry order. -/
def encodedEntries (config : List (String × String)) : List EncodedEntry :=
  (reverseEntries config).flatMap (fun e =>
    if e.value.length < 8 then []
    else
      [{ ci := false, pattern := b64encode (String.mk e.value)
         placeholder := (placeholderForm e.placeholder).data },
       { ci := true, pattern := hexEncode (String.mk e.value)
         placeholder := (placeholderForm e.placeholder).data }])

/-- The full scrub on characters: the literal alternation pass, then
each encoding matcher in construction order. -/
def scrubChars (config : List (String × String)) (s : List Char) : List Char :=
  (encodedEntries config).foldl
    (fun acc e => replaceAllLit e.ci e.pattern e.placeholder acc)
    (scrubScan (reverseEntries config) (lookupRepl config) s)

/-- `SecretVault.scrub` (the `!this.scrubRegex` early return fires
exactly when the reverse index is empty). -/
def scrub (config : List (String × String)) (text : String) : String :=
  if (reverseEntries config).isEmpty then text
  else String.mk (scrubChars config text.data)

/-! ### Forward injection (`SecretVault.inject`) -/

/-- First character of a placeholder name (`[A-Z_]`). -/
def isNameStart (c : Char) : Bool := ('A' ≤ c && c ≤ 'Z') || c = '_'

/-- Subsequent characters of a placeholder name (`[A-Z0-9_]`). -/
def isNameChar (c : Char) : Bool := isNameStart c || ('0' ≤ c && c ≤ '9')

/-- Match `PLACEHOLDER_RE` at the current position: `\x7b\x7b`, a name
(maximal munch — the name class excludes `\x7d`, so no backtracking is
possible), then `\x7d\x7d`.  Returns the captured name and the length
of the whole match. -/
def parsePlaceholder : List Char → Option (String × Nat)
  | '{' :: '{' :: rest =>
      match rest with
      | c :: rest2 =>
          if isNameStart c then
            let more := rest2.takeWhile isNameChar
            match rest2.dropWhile isNameChar with
            | '}' :: '}' :: _ => some (String.mk (c :: more), more.length + 5)
            | _ => none
          else none
      | [] => none
  | _ => none

/-- `this.forward.get(name)`. -/
def forwardGet (config : List (String × String)) (name : String) : Option String :=
  jsMapGet config name

/-- The global-replace scan of `text.replace(PLACEHOLDER_RE, ...)`:
known names are replaced by their value, unknown matches are kept
textually. -/
def injectScanF (config : List (String × String)) : Nat → List Char → List Char
  | 0, s => s
  | _, [] => []
  | fuel + 1, c :: cs =>
      match parsePlaceholder (c :: cs) with
      | some (name, len) =>
          (match forwardGet config name with
           | some v => v.data
           | none => (c :: cs).take len) ++ injectScanF config fuel (cs.drop (len - 1))
      | none => c :: injectScanF config fuel cs

/-- `SecretVault.inject`. -/
def inject (config : List (String × String)) (text : String) : String :=
  String.mk (injectScanF config text.data.length text.data)

/-- `SecretVault.placeholders` — the keys of the forward map, in
first-insertion order. -/
def placeholders (config : List (String × String)) : List String :=
  jsMapKeys config

/-- Scan companion of `injectScanF`: does the text contain any match of
the placeholder grammar?  (Formalizes "strings that contain no
placeholder-shaped substring".) -/
def hasPlaceholderF : Nat → List Char → Bool
  | 0, _ => false
  | _, [] => false
  | fuel + 1, c :: cs =>
      match parsePlaceholder (c :: cs) with
      | some _ => true
      | none => hasPlaceholderF fuel cs

def hasPlaceholder (text : String) : Bool :=
  hasPlaceholderF text.data.length text.data

/-- Scan companion of `injectScanF`: every placeholder match in the
text has a name unknown to the vault. -/
def allUnknownF (config : List (String × String)) : Nat → List Char → Bool
  | 0, _ => true
  | _, [] => true
  | fuel + 1, c :: cs =>
      match parsePlaceholder (c :: cs) with
      | some (name, len) =>
          !(forwardGet config name).isSome && allUnknownF config fuel (cs.drop (len - 1))
      | none => allUnknownF config fuel cs

def allUnknown (config : List (String × String)) (text : String) : Bool :=
  allUnknownF config text.data.length text.data

/-- One token of the global-replace scan of `PLACEHOLDER_RE`: an
unmatched character copied through, or a placeholder match with its
captured name. -/
inductive InjTok where
  | chr (c : Char)
  | ph (name : String)
  deriving DecidableEq

/-- The source text a token stands for: the character itself, or the
whole match `\x7b\x7bNAME\x7d\x7d`. -/
def injTokSrc : InjTok → List Char
  | .chr c => [c]
  | .ph name => '{' :: '{' :: (name.data ++ ['}', '}'])

/-- What the replace callback emits for a token: unmatched characters
and unknown-name matches verbatim, known names replaced by the stored
value. -/
def injTokOut (config : List (String × String)) : InjTok → List Char
  | .chr c => [c]
  | .ph name =>
      match forwardGet config name with
      | some v => v.data
      | none => '{' :: '{' :: (name.data ++ ['}', '}'])

/-- Concatenation of token source texts. -/
def injTokSrcAll : List InjTok → List Char
  | [] => []
  | t :: ts => injTokSrc t ++ injTokSrcAll ts

/-- Concatenation of token emissions. -/
def injTokOutAll (config : List (String × String)) : List InjTok → List Char
  | [] => []
  | t :: ts => injTokOut config t ++ injTokOutAll config ts

/-- The token decomposition performed by the scan of `injectScanF`,
with the same fuel discipline. -/
def injTokensF : Nat → List Char → List InjTok
  | 0, s => s.map .chr
  | _, [] => []
  | fuel + 1, c :: cs =>
      match parsePlaceholder (c :: cs) with
      | some (name, len) => .ph name :: injTokensF fuel (cs.drop (len - 1))
      | none => .chr c :: injTokensF fuel cs

def injTokens (text : String) : List InjTok :=
  injTokensF text.data.length text.data

/-! ## The system-prompt hint builder (`buildSystemPromptHint`) -/

def hintHeader : List String :=
  ["[Aegis Firewall Active]",
   "",
   "This agent is protected by the Aegis security plugin.",
   "",
   "Secret access:",
   "- Use \x7b\x7bKEY_NAME\x7d\x7d syntax to reference secrets in tool parameters.",
   "- Aegis will inject the real value before the tool executes.",
   "- Never hardcode or guess secret values — always use placeholders."]

def hintFooter : List String :=
  ["",
   "Tool filtering:",
   "- Some tool calls may be blocked by security rules.",
   "- If a call is blocked, you will receive an error with guidance. Adjust your approach and retry."]

/-- `buildSystemPromptHint`: header, the placeholder listing (numbered
opaque aliases or the real names, in vault order), footer. -/
def buildSystemPromptHint (config : List (String × String))
    (opaqueVaultNames : Bool) : String :=
  let names := placeholders config
  let middle :=
    if names.length > 0 then
      ["", "Available secret placeholders:"] ++
        (if opaqueVaultNames then
          (List.range names.length).map
            (fun i => "  - " ++ placeholderForm ("SECRET_" ++ toString (i + 1)))
        else
          names.map (fun name => "  - " ++ placeholderForm name))
    else []
  String.intercalate "\n" (hintHeader ++ middle ++ hintFooter)

/-! ## The deep object walker (`SecretVault.deepWalk` and the
sanitizer's `deepWalkStrings`, which are textually identical)

Object identity — what the `WeakSet` tracks — is modelled with an
explicit heap: containers live at addresses, and a value refers to a
container through its address.  Returning a container "unchanged" (the
cycle-protection branch) therefore returns the reference itself, while
the normal path builds fresh arrays/objects. -/

inductive HVal : Type where
  | vstr : String → HVal
  | vnum : Int → HVal
  | vbool : Bool → HVal
  | vnull : HVal
  | vref : Nat → HVal
deriving Repr, DecidableEq

inductive HContainer : Type where
  | harr : List HVal → HContainer
  | hobj : List (String × HVal) → HContainer
deriving Repr, DecidableEq

def Heap : Type := List (Nat × HContainer)

def heapGet (H : Heap) (a : Nat) : Option HContainer :=
  (H.find? (fun p => p.1 = a)).map (·.2)

inductive OutVal : Type where
  | ostr : String → OutVal
  | onum : Int → OutVal
  | obool : Bool → OutVal
  | onull : OutVal
  | oref : Nat → OutVal
  | oarr : List OutVal → OutVal
  | oobj : List (String × OutVal) → OutVal

/-- `deepWalk(obj, fn, visited)`: strings are transformed, other
primitives pass through, an already-visited container is returned as
itself (`oref`), and otherwise the container is added to the visited
set and rebuilt with every child walked in order, threading the visited
set.  `fuel` bounds the reference-chasing depth (the source recursion
is bounded by the number of distinct containers, since every visited
container is added to the set before recursing). -/
def deepWalk (H : Heap) (f : String → String) :
    Nat → HVal → List Nat → OutVal × List Nat
  | _, .vstr s, seen => (.ostr (f s), seen)
  | _, .vnum n, seen => (.onum n, seen)
  | _, .vbool b, seen => (.obool b, seen)
  | _, .vnull, seen => (.onull, seen)
  | 0, .vref a, seen => (.oref a, seen)
  | fuel + 1, .vref a, seen =>
      if a ∈ seen then (.oref a, seen)
      else
        match heapGet H a with
        | none => (.oref a, seen)
        | some (.harr elems) =>
            let r := elems.foldl
              (fun acc v =>
                let vr := deepWalk H f fuel v acc.2
                (acc.1 ++ [vr.1], vr.2))
              (([] : List OutVal), a :: seen)
            (.oarr r.1, r.2)
        | some (.hobj fields) =>
            let r := fields.foldl
              (fun acc kv =>
                let vr := deepWalk H f fuel kv.2 acc.2
                (acc.1 ++ [(kv.1, vr.1)], vr.2))
              (([] : List (String × OutVal)), a :: seen)
            (.oobj r.1, r.2)

/-- `SecretVault.scrubObject`. -/
def scrubObject (config : List (String × String)) (H : Heap) (fuel : Nat)
    (v : HVal) : OutVal :=
  (deepWalk H (scrub config) fuel v []).1

/-- `SecretVault.injectParams`. -/
def injectParams (config : List (String × String)) (H : Heap) (fuel : Nat)
    (v : HVal) : OutVal :=
  (deepWalk H (inject config) fuel v []).1

/-! ## Specification-side definitions and concrete fixtures -/

/-- The rule-set resolution as the specification words it: a compiled
rule set registered under the normalized name if one exists, else the
rule set of the first group (in declared order) containing the name
whose key has a compiled rule set, else the defaults. -/
def specResolveRuleSet (gk : Gatekeeper) (n : String) : Option CompiledToolRuleSet :=
  (objGet gk.compiledTools n).orElse (fun _ =>
    (TOOL_GROUPS.findSome?
      (fun gm => if n ∈ gm.2 then objGet gk.compiledTools gm.1 else none)).orElse
      (fun _ => gk.compiledDefaults))

/-- Default rules of the C2 counterexample: one tool with a deny entry
and an allow list. -/
def c2DefaultTools : List (String × ToolRuleSet) :=
  [("t", { deny := some ["x"], allow := some ["^a"] })]

/-- User rules of the C2 counterexample: the user replaces the allow
list with one that matches everything relevant. -/
def c2UserTools : List (String × ToolRuleSet) :=
  [("t", { allow := some ["b"] })]

def c2GkDefaults : Gatekeeper :=
  Gatekeeper.ofRules { defaults := none, tools := c2DefaultTools } none

def c2GkMerged : Gatekeeper :=
  Gatekeeper.ofRules
    { defaults := none
      tools := deepMergeToolRules c2DefaultTools (some c2UserTools) } none

/-- A gatekeeper with no rules at all but a tripped suspend breaker
(C7 counterexample fixture). -/
def c7BreakerGk : Gatekeeper :=
  Gatekeeper.ofRules { defaults := none, tools := [] }
    (some { maxBlocked := 1, windowMs := 60000, action := .suspend })

/-- An empty-rules gatekeeper with a suspend breaker (C5 witness). -/
def c5Gk : Gatekeeper :=
  Gatekeeper.ofRules { defaults := none, tools := [] }
    (some { maxBlocked := 2, windowMs := 60000, action := .suspend })

/-- An empty-rules gatekeeper without a breaker (C7 witness). -/
def c7PlainGk : Gatekeeper :=
  Gatekeeper.ofRules { defaults := none, tools := [] } none

/-- Two-container heap with the inner array shared (C10 witness). -/
def c10Heap : Heap :=
  [(0, .harr [.vref 1, .vref 1]), (1, .harr [.vstr "x"])]

/-- Specification-side: the opaque-mode prompt hint as a function of
the vault *size* alone, listing `SECRET_1 .. SECRET_N` in order. -/
def opaqueHintTemplate (n : Nat) : String :=
  let middle :=
    if 0 < n then
      ["", "Available secret placeholders:"] ++
        (List.range n).map
          (fun i => "  - " ++ placeholderForm ("SECRET_" ++ toString (i + 1)))
    else []
  String.intercalate "\n" (hintHeader ++ middle ++ hintFooter)

/-! # Theorems -/

/-- C1: with the shipped default rules,
`beforeToolCall("exec", \x7bcommand: "echo hello"\x7d)` is *blocked*,
not allowed: the call-level deny pattern `.*` of the default exec rule
set matches the serialized params string before the allow list is ever
consulted, so the check returns `allowed = false` with the exec block
message — against the specification's scenario table, the defaults
file's own "deny all by default, allow safe commands" design comment,
and the repository's E2E test "should allow safe exec (echo hello)". -/
theorem C1_default_exec_echo_hello_blocked :
    (defaultGatekeeper.check [] "exec" [("command", .str "echo hello")] 0).1 =
      { allowed := false
        reason := some "Shell command blocked by Aegis. Only safe, allow-listed commands are permitted." } := by
  decide

/-- C2 counterexample: a call blocked under the defaults alone (by the
default allow gate) is allowed under the merged rules, although the
defaults have a deny entry for the tool — the user's allow list
replaces the default one, so merging can shrink the blocked set. -/
theorem C2_counterexample_merge_not_monotonic :
    ((c2DefaultTools.map (fun t => (t.2.deny.getD []).length)) = [1]) ∧
    (c2GkDefaults.check [] "t" [("p", .str "bcd")] 0).1.allowed = false ∧
    (c2GkMerged.check [] "t" [("p", .str "bcd")] 0).1.allowed = true := by
  decide

/-- C3 counterexample: two placeholders `A` (earlier) and `B` (later)
both mapped to `"dup"`; scrubbing `"dup"` yields `\x7b\x7bB\x7d\x7d` —
the *later*-inserted placeholder wins, because the reverse lookup map
is a JS `Map` built from an entry list, where later duplicate keys
overwrite earlier ones. -/
theorem C3_counterexample_earlier_does_not_win :
    scrub [("A", "dup"), ("B", "dup")] "dup" = placeholderForm "B" ∧
      placeholderForm "B" ≠ placeholderForm "A" := by
  decide

/-- C4 counterexample: `v1 = "ABCDEFGHX"`, `v2 = "ABCDEFGH"` with
`|v1| > |v2|` and `v2` a substring of `v1`; scrubbing `v1` does *not*
yield the placeholder of `v1`, because the case-insensitive hex
encoding matcher of `v2` fires inside the placeholder *name*
`A4142434445464748` produced by the literal pass. -/
theorem C4_counterexample_encoding_matcher_interferes :
    scrub [("A4142434445464748", "ABCDEFGHX"), ("SHORT", "ABCDEFGH")] "ABCDEFGHX" =
        lbrace ++ lbrace ++ "A" ++ placeholderForm "SHORT" ++ rbrace ++ rbrace ∧
      scrub [("A4142434445464748", "ABCDEFGHX"), ("SHORT", "ABCDEFGH")] "ABCDEFGHX" ≠
        placeholderForm "A4142434445464748" := by
  decide

/-- C6 counterexample: for the vault `\x7bTOKEN: "Aegis"\x7d` the hint
*does* contain the vault secret value — the value coincides with the
fixed banner text ("the Aegis security plugin"), so the universally
quantified "contains no vault secret value" fails. -/
theorem C6_counterexample_value_in_banner :
    containsSub "Aegis".data
      (buildSystemPromptHint [("TOKEN", "Aegis")] false).data = true := by
  decide

/-- C7 counterexample: with a tripped suspend circuit breaker, a call
to a tool for which *no* rule set applies still returns
`allowed = false` — "allowed unconditionally" fails as stated, because
the breaker runs before rule resolution. -/
theorem C7_counterexample_breaker_blocks_ruleless_tool :
    c7BreakerGk.resolveRuleSet (normalizeToolName "zzz") = none ∧
      (c7BreakerGk.check [99999] "zzz" [] 100000).1.allowed = false := by
  decide

/-- C8 counterexample: for the vault `\x7bB: "B\x7d\x7d"\x7d` scrub is
not idempotent — the first scrub produces `\x7b\x7bB\x7d\x7d`, whose
tail `B\x7d\x7d` the second scrub matches again. -/
theorem C8_counterexample_not_idempotent :
    scrub [("B", "B\x7d\x7d")] (scrub [("B", "B\x7d\x7d")] "B\x7d\x7d") ≠
      scrub [("B", "B\x7d\x7d")] "B\x7d\x7d" := by
  decide

/-- Rebuilding a string from its characters is the identity. -/
theorem strMk_data (s : String) : String.mk s.data = s := rfl

/-- The `recordBlock` result is the old log or the old log extended by
`now`. -/
theorem recordBlock_cases (breaker : Option CircuitBreakerConfig) (ts : List Int)
    (now : Int) :
    recordBlock breaker ts now = ts ∨ recordBlock breaker ts now = ts ++ [now] := by
  unfold recordBlock
  split
  · exact Or.inr rfl
  · exact Or.inl rfl

/-- Rule evaluation either leaves the timestamp log unchanged or
appends exactly the current time (via `recordBlock`). -/
theorem checkRules_snd_cases (gk : Gatekeeper) (ts : List Int) (tool : String)
    (params : List (String × JVal)) (now : Int) :
    (gk.checkRules ts tool params now).2 = ts ∨
      (gk.checkRules ts tool params now).2 = ts ++ [now] := by
  simp only [Gatekeeper.checkRules]
  split
  · exact Or.inl rfl
  · split
    · exact recordBlock_cases _ ts now
    · split
      · exact recordBlock_cases _ ts now
      · split
        · exact Or.inl rfl
        · split
          · exact recordBlock_cases _ ts now
          · exact Or.inl rfl

/-- With a breaker configured, `check` is the breaker guard over the
pruned timestamp list followed by rule evaluation on that list. -/
theorem check_breaker_eq (gk : Gatekeeper) (cb : CircuitBreakerConfig)
    (hcb : gk.circuitBreaker = some cb) (ts : List Int) (tool : String)
    (params : List (String × JVal)) (now : Int) :
    gk.check ts tool params now =
      (if (ts.filter (fun t => now - (cb.windowMs : Int) < t)).length ≥ cb.maxBlocked
          ∧ cb.action = .suspend then
        ({ allowed := false
           reason := some (breakerMessage
             (ts.filter (fun t => now - (cb.windowMs : Int) < t)).length cb.windowMs) },
         ts.filter (fun t => now - (cb.windowMs : Int) < t))
      else gk.checkRules (ts.filter (fun t => now - (cb.windowMs : Int) < t))
        tool params now) := by
  unfold Gatekeeper.check
  rw [hcb]

/-- Without a breaker, `check` is rule evaluation directly. -/
theorem check_nobreaker_eq (gk : Gatekeeper) (hnb : gk.circuitBreaker = none)
    (ts : List Int) (tool : String) (params : List (String × JVal)) (now : Int) :
    gk.check ts tool params now = gk.checkRules ts tool params now := by
  unfold Gatekeeper.check
  rw [hnb]

/-- C5: with a circuit breaker configured, every `check` call prunes
timestamps older than `now − windowMs` before the size comparison; a
tripped breaker with `action = suspend` returns `allowed = false` with
the breaker reason naming the count and window and records no new
timestamp; with `action = warn` rule evaluation proceeds normally on
the pruned state; and in every case the resulting timestamp log is the
pruned log, possibly extended by the one timestamp a rule block adds. -/
theorem C5_breaker_invariants (gk : Gatekeeper) (cb : CircuitBreakerConfig)
    (hcb : gk.circuitBreaker = some cb) (ts : List Int) (tool : String)
    (params : List (String × JVal)) (now : Int) :
    (cb.action = .suspend →
      cb.maxBlocked ≤ (ts.filter (fun t => now - (cb.windowMs : Int) < t)).length →
      gk.check ts tool params now =
        ({ allowed := false
           reason := some (breakerMessage
             (ts.filter (fun t => now - (cb.windowMs : Int) < t)).length cb.windowMs) },
         ts.filter (fun t => now - (cb.windowMs : Int) < t)))
    ∧ (cb.action = .warn →
      gk.check ts tool params now =
        gk.checkRules (ts.filter (fun t => now - (cb.windowMs : Int) < t)) tool params now)
    ∧ ((gk.check ts tool params now).2 =
          ts.filter (fun t => now - (cb.windowMs : Int) < t) ∨
        (gk.check ts tool params now).2 =
          ts.filter (fun t => now - (cb.windowMs : Int) < t) ++ [now]) := by
  rw [check_breaker_eq gk cb hcb ts tool params now]
  refine ⟨fun ha hn => ?_, fun ha => ?_, ?_⟩
  · rw [if_pos ⟨hn, ha⟩]
  · rw [if_neg]
    rintro ⟨-, h2⟩
    rw [ha] at h2
    exact absurd h2 (by decide)
  · split
    · exact Or.inl rfl
    · exact checkRules_snd_cases gk _ tool params now

/-- C5 witness: a tripped suspend breaker on a concrete gatekeeper. -/
theorem C5_breaker_witness :
    c5Gk.check [99999, 99998] "t" [] 100000 =
      ({ allowed := false, reason := some (breakerMessage 2 60000) },
       [99999, 99998]) := by
  have h := (C5_breaker_invariants c5Gk
    { maxBlocked := 2, windowMs := 60000, action := .suspend } rfl
    [99999, 99998] "t" [] 100000).1 rfl (by decide)
  rw [h]
  decide

/-- C7: rule-set resolution follows the specified chain — the compiled
rule set under the normalized name, else the first group in declared
order containing the normalized name whose key has a compiled rule
set, else the defaults — and when the chain produces nothing and no
circuit breaker is configured, `check` allows the call unconditionally
(the counterexample shows a tripped suspend breaker still blocks). -/
theorem C7_resolution (gk : Gatekeeper) (tool : String) (ts : List Int)
    (params : List (String × JVal)) (now : Int)
    (hnb : gk.circuitBreaker = none) :
    gk.resolveRuleSet (normalizeToolName tool) =
      specResolveRuleSet gk (normalizeToolName tool)
    ∧ (gk.resolveRuleSet (normalizeToolName tool) = none →
        gk.check ts tool params now = ({ allowed := true, reason := none }, ts)) := by
  constructor
  · unfold Gatekeeper.resolveRuleSet specResolveRuleSet
    cases h1 : objGet gk.compiledTools (normalizeToolName tool) with
    | some r => simp [Option.orElse]
    | none =>
        cases h2 : TOOL_GROUPS.findSome?
            (fun gm => if normalizeToolName tool ∈ gm.2 then
              objGet gk.compiledTools gm.1 else none) with
        | some r => simp [h2, Option.orElse]
        | none => simp [h2, Option.orElse]
  · intro h
    rw [check_nobreaker_eq gk hnb ts tool params now]
    simp only [Gatekeeper.checkRules, h]

/-- C7 witness: an unknown tool on a breaker-free empty-rules
gatekeeper is allowed. -/
theorem C7_resolution_witness :
    c7PlainGk.check [] "zzz" [] 5 = ({ allowed := true, reason := none }, []) :=
  (C7_resolution c7PlainGk "zzz" [] [] 5 rfl).2 (by decide)

/-- C10: in the deep walk (shared by `scrubObject`, `injectParams` and
`scrubAndSanitizeObject`), a container that was already visited in the
same traversal — including a merely *shared* (acyclic) one — is
returned as the original reference, untransformed; so for a heap where
the array at `p` holds the same reference `a` twice, the first
occurrence is rebuilt with its string leaf transformed while the
second occurrence returns the original untouched container. -/
theorem C10_shared_container_returned_original (H : Heap) (f : String → String)
    (p a : Nat) (s : String) (fuel : Nat) (hpa : a ≠ p)
    (hp : heapGet H p = some (.harr [.vref a, .vref a]))
    (ha : heapGet H a = some (.harr [.vstr s])) :
    (∀ (fuel' : Nat) (seen : List Nat), a ∈ seen →
        deepWalk H f fuel' (.vref a) seen = (.oref a, seen))
    ∧ deepWalk H f (fuel + 2) (.vref p) [] =
        (.oarr [.oarr [.ostr (f s)], .oref a], [a, p]) := by
  constructor
  · intro fuel' seen hmem
    cases fuel' with
    | zero => rfl
    | succ n => simp [deepWalk, hmem]
  · simp [deepWalk, hp, ha, hpa]

/-- C10 witness: the concrete two-container heap with a shared inner
array. -/
theorem C10_shared_container_witness :
    deepWalk c10Heap (fun t => t ++ "!") 2 (.vref 0) [] =
      (.oarr [.oarr [.ostr "x!"], .oref 1], [1, 0]) :=
  (C10_shared_container_returned_original c10Heap (fun t => t ++ "!") 0 1 "x" 0
    (by decide) (by decide) (by decide)).2

/-- A successful placeholder match is at least five characters long
(`\x7b\x7b`, one name character, `\x7d\x7d`). -/
theorem parsePlaceholder_len_ge {s : List Char} {name : String} {len : Nat}
    (h : parsePlaceholder s = some (name, len)) : 5 ≤ len := by
  unfold parsePlaceholder at h
  split at h
  · rename_i rest
    cases rest with
    | nil => exact absurd h (by simp)
    | cons c rest2 =>
        simp only at h
        split at h
        · split at h
          · simp only [Option.some.injEq, Prod.mk.injEq] at h
            omega
          · exact absurd h (by simp)
        · exact absurd h (by simp)
  · exact absurd h (by simp)

/-- If the scan finds no placeholder match, the inject scan copies the
input. -/
theorem injectScanF_of_no_ph (config : List (String × String)) :
    ∀ (fuel : Nat) (s : List Char), hasPlaceholderF fuel s = false →
      injectScanF config fuel s = s := by
  intro fuel
  induction fuel with
  | zero => intro s _; cases s <;> rfl
  | succ n ih =>
      intro s h
      cases s with
      | nil => rfl
      | cons c cs =>
          cases hp : parsePlaceholder (c :: cs) with
          | some v => rw [hasPlaceholderF, hp] at h; exact absurd h (by simp)
          | none =>
              rw [hasPlaceholderF, hp] at h
              simp only [injectScanF, hp, ih cs h]

/-- If every placeholder match has an unknown name, the inject scan
copies the input (unknown matches are emitted textually). -/
theorem injectScanF_of_all_unknown (config : List (String × String)) :
    ∀ (fuel : Nat) (s : List Char), allUnknownF config fuel s = true →
      injectScanF config fuel s = s := by
  intro fuel
  induction fuel with
  | zero => intro s _; cases s <;> rfl
  | succ n ih =>
      intro s h
      cases s with
      | nil => rfl
      | cons c cs =>
          cases hp : parsePlaceholder (c :: cs) with
          | none =>
              rw [allUnknownF, hp] at h
              simp only [injectScanF, hp, ih cs h]
          | some nl =>
              obtain ⟨name, len⟩ := nl
              have h5 := parsePlaceholder_len_ge hp
              rw [allUnknownF, hp, Bool.and_eq_true] at h
              obtain ⟨hunk, hrest⟩ := h
              have hget : forwardGet config name = none := by
                cases hg : forwardGet config name with
                | none => rfl
                | some v => rw [hg] at hunk; exact absurd hunk (by simp)
              simp only [injectScanF, hp, hget, ih _ hrest]
              obtain ⟨k, hk⟩ : ∃ k, len = k + 1 := ⟨len - 1, by omega⟩
              subst hk
              simp only [List.take_succ_cons, Nat.add_sub_cancel, List.cons_append,
                List.cons.injEq, true_and]
              exact List.take_append_drop k cs

/-- A successful placeholder parse captures exactly the matched prefix:
the first `len` characters of the input are `\x7b\x7b`, the name,
`\x7d\x7d`. -/
theorem parsePlaceholder_spec {s : List Char} {name : String} {len : Nat}
    (h : parsePlaceholder s = some (name, len)) :
    s.take len = '{' :: '{' :: (name.data ++ ['}', '}']) := by
  unfold parsePlaceholder at h
  split at h
  · rename_i rest
    cases rest with
    | nil => exact absurd h (by simp)
    | cons c rest2 =>
        simp only at h
        split at h
        · split at h
          · rename_i tail heq
            simp only [Option.some.injEq, Prod.mk.injEq] at h
            obtain ⟨hname, hlen⟩ := h
            have hrest2 : rest2 = rest2.takeWhile isNameChar ++ ('}' :: '}' :: tail) := by
              conv_lhs => rw [← List.takeWhile_append_dropWhile (p := isNameChar) (l := rest2)]
              rw [heq]
            have hdat : name.data = c :: rest2.takeWhile isNameChar := by
              rw [← hname, strMk_data]
            have hform : ('{' : Char) :: '{' :: c :: rest2 =
                ('{' :: '{' :: (name.data ++ ['}', '}'])) ++ tail := by
              rw [hdat]
              conv_lhs => rw [hrest2]
              simp
            have hPlen : ('{' :: '{' :: (name.data ++ ['}', '}'])).length = len := by
              rw [hdat, ← hlen]
              simp
            rw [hform, ← hPlen, List.take_left]
          · exact absurd h (by simp)
        · exact absurd h (by simp)
  · exact absurd h (by simp)

/-- On plain character tokens the source concatenation is the input. -/
theorem injTokSrcAll_map_chr : ∀ (s : List Char),
    injTokSrcAll (s.map InjTok.chr) = s := by
  intro s
  induction s with
  | nil => rfl
  | cons c cs ih =>
      simp only [List.map_cons, injTokSrcAll, injTokSrc, ih, List.singleton_append]

/-- On plain character tokens the emission concatenation is the input. -/
theorem injTokOutAll_map_chr (config : List (String × String)) : ∀ (s : List Char),
    injTokOutAll config (s.map InjTok.chr) = s := by
  intro s
  induction s with
  | nil => rfl
  | cons c cs ih =>
      simp only [List.map_cons, injTokOutAll, injTokOut, ih, List.singleton_append]

/-- The token sources concatenate back to the scanned text: the scan
decomposes its input without loss. -/
theorem injTokensF_src (fuel : Nat) : ∀ (s : List Char),
    injTokSrcAll (injTokensF fuel s) = s := by
  induction fuel with
  | zero => intro s; cases s with
      | nil => rfl
      | cons c cs => exact injTokSrcAll_map_chr (c :: cs)
  | succ n ih =>
      intro s
      cases s with
      | nil => rfl
      | cons c cs =>
          cases hp : parsePlaceholder (c :: cs) with
          | none =>
              simp only [injTokensF, hp, injTokSrcAll, injTokSrc, ih cs,
                List.singleton_append]
          | some nl =>
              obtain ⟨name, len⟩ := nl
              have h5 := parsePlaceholder_len_ge hp
              have htake := parsePlaceholder_spec hp
              have hdrop : (c :: cs).drop len = cs.drop (len - 1) := by
                obtain ⟨k, hk⟩ : ∃ k, len = k + 1 := ⟨len - 1, by omega⟩
                subst hk
                simp [List.drop_succ_cons]
              simp only [injTokensF, hp, injTokSrcAll, injTokSrc, ih]
              conv_rhs => rw [← List.take_append_drop len (c :: cs), htake, hdrop]

/-- The emission concatenation of the token decomposition is exactly
the inject scan's output. -/
theorem injTokensF_out (config : List (String × String)) (fuel : Nat) :
    ∀ (s : List Char),
    injTokOutAll config (injTokensF fuel s) = injectScanF config fuel s := by
  induction fuel with
  | zero => intro s; cases s with
      | nil => rfl
      | cons c cs => exact injTokOutAll_map_chr config (c :: cs)
  | succ n ih =>
      intro s
      cases s with
      | nil => rfl
      | cons c cs =>
          cases hp : parsePlaceholder (c :: cs) with
          | none =>
              simp only [injTokensF, injectScanF, hp, injTokOutAll, injTokOut, ih cs,
                List.singleton_append]
          | some nl =>
              obtain ⟨name, len⟩ := nl
              simp only [injTokensF, injectScanF, hp, injTokOutAll, ih]
              cases hg : forwardGet config name with
              | some v => simp only [injTokOut, hg]
              | none =>
                  have htake := parsePlaceholder_spec hp
                  simp only [injTokOut, hg, htake]

/-- C9: `inject` is the identity on strings with no substring matching
the placeholder grammar; and on every string the global-replace scan
decomposes the input into tokens (unmatched characters and placeholder
matches) whose source texts concatenate to the input, emits exactly
the concatenation of the per-token outputs, and emits every token
other than a known-name match — in particular every
`\x7b\x7bNAME\x7d\x7d` occurrence whose captured name is not a vault
placeholder — textually unchanged. -/
theorem C9_unknown_placeholder_survives (config : List (String × String)) (t : String) :
    (hasPlaceholder t = false → inject config t = t)
    ∧ String.mk (injTokSrcAll (injTokens t)) = t
    ∧ inject config t = String.mk (injTokOutAll config (injTokens t))
    ∧ ∀ tok ∈ injTokens t,
        (∀ name, tok = InjTok.ph name → forwardGet config name = none) →
        injTokOut config tok = injTokSrc tok := by
  refine ⟨?_, ?_, ?_, ?_⟩
  · intro h
    unfold inject
    rw [injectScanF_of_no_ph config _ _ h, strMk_data]
  · unfold injTokens
    rw [injTokensF_src, strMk_data]
  · unfold inject injTokens
    rw [injTokensF_out]
  · intro tok _ hname
    cases tok with
    | chr c => rfl
    | ph name => simp only [injTokOut, injTokSrc, hname name rfl]

/-- C9 witness: a concrete vault and a mixed text holding one known and
one unknown placeholder — identity on a placeholder-free string, the
token sources rebuild the input, the output replaces only the known
name, and the unknown match token is emitted verbatim. -/
theorem C9_unknown_placeholder_survives_witness :
    inject [("API_KEY", "sk-1")] "plain text" = "plain text"
    ∧ String.mk (injTokSrcAll (injTokens "a \x7b\x7bAPI_KEY\x7d\x7d b \x7b\x7bUNKNOWN\x7d\x7d c"))
        = "a \x7b\x7bAPI_KEY\x7d\x7d b \x7b\x7bUNKNOWN\x7d\x7d c"
    ∧ inject [("API_KEY", "sk-1")] "a \x7b\x7bAPI_KEY\x7d\x7d b \x7b\x7bUNKNOWN\x7d\x7d c"
        = "a sk-1 b \x7b\x7bUNKNOWN\x7d\x7d c"
    ∧ InjTok.ph "UNKNOWN" ∈ injTokens "a \x7b\x7bAPI_KEY\x7d\x7d b \x7b\x7bUNKNOWN\x7d\x7d c"
    ∧ injTokOut [("API_KEY", "sk-1")] (InjTok.ph "UNKNOWN") = injTokSrc (InjTok.ph "UNKNOWN") := by
  have h := C9_unknown_placeholder_survives [("API_KEY", "sk-1")]
      "a \x7b\x7bAPI_KEY\x7d\x7d b \x7b\x7bUNKNOWN\x7d\x7d c"
  have h0 := C9_unknown_placeholder_survives [("API_KEY", "sk-1")] "plain text"
  refine ⟨h0.1 (by decide), h.2.1, ?_, by decide, ?_⟩
  · rw [h.2.2.1]
    decide
  · refine h.2.2.2 (InjTok.ph "UNKNOWN") (by decide) ?_
    intro name hn
    injection hn with h2
    subst h2
    decide

/-- C6 (amended): the hint is built from the placeholder names only —
vaults with equal placeholder lists produce identical hints, so no
secret value flows into the hint; and with `opaqueVaultNames` set the
hint is a fixed template of the vault size listing
`SECRET_1 .. SECRET_N` in order, independent even of the names.  (The
counterexample shows the literal "contains no secret value" phrasing
fails when a value coincides with this value-independent template
text.) -/
theorem C6_hint_value_independent (cfg1 cfg2 : List (String × String))
    (opq : Bool) (h : placeholders cfg1 = placeholders cfg2) :
    buildSystemPromptHint cfg1 opq = buildSystemPromptHint cfg2 opq
    ∧ buildSystemPromptHint cfg1 true = opaqueHintTemplate (placeholders cfg1).length := by
  constructor
  · unfold buildSystemPromptHint
    rw [h]
  · rfl

/-- C6 witness: same names with different values give the same hint;
the two-entry opaque hint is the size-2 template. -/
theorem C6_hint_value_independent_witness :
    buildSystemPromptHint [("API_KEY", "a")] false =
      buildSystemPromptHint [("API_KEY", "b")] false
    ∧ buildSystemPromptHint [("API_KEY", "a")] true =
        opaqueHintTemplate 1 :=
  (C6_hint_value_independent [("API_KEY", "a")] [("API_KEY", "b")] false (by decide))

/-- A list is a (Boolean) prefix of itself. -/
theorem isPrefixOf_self (l : List Char) : l.isPrefixOf l = true := by
  induction l with
  | nil => rfl
  | cons c cs ih => simp [List.isPrefixOf, ih]

/-- The scrub scan of the empty text is empty at any fuel. -/
theorem scrubScanF_nil (es : List RevEntry) (lk : List Char → List Char)
    (fuel : Nat) : scrubScanF es lk fuel [] = [] := by
  cases fuel <;> rfl

/-- Distinct strings have distinct character lists. -/
theorem strData_ne {a b : String} (h : a ≠ b) : a.data ≠ b.data := by
  intro hd
  cases a
  cases b
  exact h (congrArg String.mk hd)

/-- If every encoding matcher in the list leaves `x` unchanged, so does
the whole encoding-pass fold. -/
theorem foldl_replace_id (L : List EncodedEntry) (x : List Char)
    (h : ∀ ee ∈ L, replaceAllLit ee.ci ee.pattern ee.placeholder x = x) :
    L.foldl (fun acc e => replaceAllLit e.ci e.pattern e.placeholder acc) x = x := by
  induction L with
  | nil => rfl
  | cons e L ih =>
      rw [List.foldl_cons, h e (List.mem_cons_self _ _)]
      exact ih (fun ee hm => h ee (List.mem_cons_of_mem _ hm))

/-- When the first matching entry's value is the whole text, the
literal pass replaces the whole text in one step. -/
theorem scrubScan_head_match (es : List RevEntry) (lk : List Char → List Char)
    (e : RevEntry) (s : List Char) (hne : s ≠ [])
    (hfind : findMatchEntry es s = some e) (he : e.value = s) :
    scrubScan es lk s = lk s := by
  cases s with
  | nil => exact absurd rfl hne
  | cons c cs =>
      unfold scrubScan
      rw [List.length_cons]
      simp only [scrubScanF, hfind]
      rw [he]
      simp only [List.length_cons, Nat.add_sub_cancel, List.drop_length,
        scrubScanF_nil, List.append_nil]

/-- C4 (amended): for a two-entry vault with distinct non-empty values,
`|v1| > |v2|` and `v2` a substring of `v1`, scrubbing `v1` yields the
placeholder of `v1` — *provided* the encoding matchers do not
themselves match inside the produced placeholder text (the
counterexample shows the hex matcher can otherwise rewrite it). -/
theorem C4_longest_match (n1 n2 v1 v2 : String)
    (hne : v1 ≠ v2) (hv2 : 0 < v2.length) (hlen : v2.length < v1.length)
    (hsub : containsSub v2.data v1.data = true)
    (henc : ∀ ee ∈ encodedEntries [(n1, v1), (n2, v2)],
      replaceAllLit ee.ci ee.pattern ee.placeholder (placeholderForm n1).data
        = (placeholderForm n1).data) :
    scrub [(n1, v1), (n2, v2)] v1 = placeholderForm n1 := by
  have hv1 : 0 < v1.length := lt_trans hv2 hlen
  have hre : reverseEntries [(n1, v1), (n2, v2)] = [⟨v1.data, n1⟩, ⟨v2.data, n2⟩] := by
    unfold reverseEntries
    have hf : List.filter (fun e => decide (e.2.length > 0)) [(n1, v1), (n2, v2)] =
        [(n1, v1), (n2, v2)] := by
      simp [List.filter, hv1, hv2]
    rw [hf]
    simp only [List.map]
    simp only [sortByLenDesc, insertByLenDesc]
    rw [if_neg]
    show ¬ (v1.data.length < v2.data.length)
    have e1 : v1.data.length = v1.length := rfl
    have e2 : v2.data.length = v2.length := rfl
    omega
  have hlk : lookupRepl [(n1, v1), (n2, v2)] v1.data = (placeholderForm n1).data := by
    unfold lookupRepl jsMapGet reverseLookupPairs
    rw [hre]
    simp [List.find?, strData_ne (Ne.symm hne)]
  have hfind : findMatchEntry [⟨v1.data, n1⟩, ⟨v2.data, n2⟩] v1.data =
      some ⟨v1.data, n1⟩ := by
    unfold findMatchEntry
    rw [List.find?_cons_of_pos]
    exact isPrefixOf_self v1.data
  unfold scrub
  rw [hre, if_neg (by simp)]
  unfold scrubChars
  rw [hre]
  rw [scrubScan_head_match _ _ _ _ (List.ne_nil_of_length_pos hv1) hfind rfl]
  rw [hlk]
  rw [foldl_replace_id _ _ henc]

/-- C4 witness: a concrete two-entry vault where the shorter value is a
substring of the longer one. -/
theorem C4_longest_match_witness :
    scrub [("ALPHA", "sk-test-secret-12"), ("BETA", "secret")] "sk-test-secret-12" =
      placeholderForm "ALPHA" :=
  C4_longest_match "ALPHA" "BETA" "sk-test-secret-12" "secret" (by decide) (by decide)
    (by decide) (by decide) (by decide)

/-- Membership in a stable insertion. -/
theorem mem_insertByLenDesc {a x : RevEntry} : ∀ {l : List RevEntry},
    a ∈ insertByLenDesc x l ↔ a = x ∨ a ∈ l := by
  intro l
  induction l with
  | nil => simp [insertByLenDesc]
  | cons y ys ih =>
      simp only [insertByLenDesc]
      split
      · simp [ih]
        tauto
      · simp

/-- Stable insertion preserves the descending-length invariant. -/
theorem insertByLenDesc_sorted (x : RevEntry) : ∀ (l : List RevEntry),
    l.Pairwise (fun a b => b.value.length ≤ a.value.length) →
    (insertByLenDesc x l).Pairwise (fun a b => b.value.length ≤ a.value.length) := by
  intro l
  induction l with
  | nil => intro _; simp [insertByLenDesc]
  | cons y ys ih =>
      intro h
      rw [List.pairwise_cons] at h
      obtain ⟨hy, hys⟩ := h
      by_cases hlt : x.value.length < y.value.length
      · simp only [insertByLenDesc, if_pos hlt]
        rw [List.pairwise_cons]
        refine ⟨?_, ih hys⟩
        intro a ha
        rcases mem_insertByLenDesc.mp ha with rfl | ha
        · omega
        · exact hy a ha
      · simp only [insertByLenDesc, if_neg hlt]
        rw [List.pairwise_cons]
        refine ⟨?_, ?_⟩
        · intro a ha
          rcases List.mem_cons.mp ha with rfl | ha
          · omega
          · have := hy a ha
            omega
        · rw [List.pairwise_cons]
          exact ⟨hy, hys⟩

/-- The reverse index really is sorted by decreasing value length. -/
theorem sortByLenDesc_sorted : ∀ (l : List RevEntry),
    (sortByLenDesc l).Pairwise (fun a b => b.value.length ≤ a.value.length) := by
  intro l
  induction l with
  | nil => simp [sortByLenDesc]
  | cons x xs ih => exact insertByLenDesc_sorted x _ ih

/-- Sorting does not change membership. -/
theorem mem_sortByLenDesc {a : RevEntry} : ∀ {l : List RevEntry},
    a ∈ sortByLenDesc l ↔ a ∈ l := by
  intro l
  induction l with
  | nil => simp [sortByLenDesc]
  | cons x xs ih =>
      simp only [sortByLenDesc]
      rw [mem_insertByLenDesc]
      simp [ih]

/-- Stability of the insertion for entries sharing one value: all
entries with a given value have the same length, so the insertion
keeps their relative order. -/
theorem insertByLenDesc_filter (x : RevEntry) (v : List Char) :
    ∀ (l : List RevEntry),
    (x.value = v → ∀ e ∈ l, e.value = v → e.value.length ≤ x.value.length) →
    (insertByLenDesc x l).filter (fun e => e.value = v)
      = (if x.value = v then [x] else []) ++ l.filter (fun e => e.value = v) := by
  intro l
  induction l with
  | nil =>
      intro _
      simp only [insertByLenDesc, List.filter, List.append_nil]
      split <;> simp_all
  | cons y ys ih =>
      intro hx
      by_cases hlt : x.value.length < y.value.length
      · simp only [insertByLenDesc, if_pos hlt]
        by_cases hyv : y.value = v
        · have hxv : ¬ x.value = v := by
            intro hxv
            have := hx hxv y (List.mem_cons_self _ _) hyv
            omega
          rw [List.filter_cons_of_pos (by simp [hyv]),
            List.filter_cons_of_pos (by simp [hyv])]
          rw [ih (fun hxv' => absurd hxv' hxv)]
          simp [hxv]
        · rw [List.filter_cons_of_neg (by simp [hyv]),
            List.filter_cons_of_neg (by simp [hyv])]
          exact ih (fun hxv e hm hev => hx hxv e (List.mem_cons_of_mem _ hm) hev)
      · simp only [insertByLenDesc, if_neg hlt]
        by_cases hxv : x.value = v
        · rw [List.filter_cons_of_pos (by simp [hxv])]
          simp [hxv]
        · rw [List.filter_cons_of_neg (by simp [hxv])]
          simp [hxv]

/-- Stability of the sort restricted to one value. -/
theorem sortByLenDesc_filter (v : List Char) : ∀ (l : List RevEntry),
    (sortByLenDesc l).filter (fun e => e.value = v)
      = l.filter (fun e => e.value = v) := by
  intro l
  induction l with
  | nil => rfl
  | cons x xs ih =>
      show (insertByLenDesc x (sortByLenDesc xs)).filter _ = _
      rw [insertByLenDesc_filter x v (sortByLenDesc xs)
        (fun hxv e _ hev => by rw [hev, ← hxv])]
      rw [ih]
      by_cases hxv : x.value = v
      · rw [List.filter_cons_of_pos (by simp [hxv])]
        simp [hxv]
      · rw [List.filter_cons_of_neg (by simp [hxv])]
        simp [hxv]

/-- `find?` returns the head of the filtered list. -/
theorem find?_eq_head_filter {α : Type} (p : α → Bool) : ∀ (l : List α),
    l.find? p = (l.filter p).head? := by
  intro l
  induction l with
  | nil => rfl
  | cons x xs ih =>
      by_cases hx : p x
      · rw [List.find?_cons_of_pos _ hx, List.filter_cons_of_pos hx]
        rfl
      · rw [List.find?_cons_of_neg _ (by simpa using hx),
          List.filter_cons_of_neg (by simpa using hx)]
        exact ih

/-- On a length-sorted reverse index containing the exact value `v`,
the alternation finds an entry whose value is exactly `v`: longer
values cannot be prefixes of `v`, equally long prefixes equal `v`, and
shorter values come after every `v` entry. -/
theorem findMatchEntry_sorted : ∀ (es : List RevEntry) (v : List Char), v ≠ [] →
    es.Pairwise (fun a b => b.value.length ≤ a.value.length) →
    (∃ e ∈ es, e.value = v) →
    ∃ e, findMatchEntry es v = some e ∧ e.value = v := by
  intro es
  induction es with
  | nil => intro v _ _ hex; simp at hex
  | cons y rest ih =>
      intro v hv hsorted hex
      rw [List.pairwise_cons] at hsorted
      obtain ⟨hy, hrest⟩ := hsorted
      by_cases hp : y.value.isPrefixOf v = true
      · refine ⟨y, ?_, ?_⟩
        · unfold findMatchEntry
          exact List.find?_cons_of_pos rest hp
        · have hpre : y.value <+: v := List.isPrefixOf_iff_prefix.mp hp
          obtain ⟨e0, he0m, he0v⟩ := hex
          rcases List.mem_cons.mp he0m with rfl | hm
          · exact he0v
          · have h1 : e0.value.length ≤ y.value.length := hy e0 hm
            have h2 : y.value.length ≤ v.length := hpre.length_le
            rw [he0v] at h1
            exact hpre.eq_of_length (by omega)
      · obtain ⟨e0, he0m, he0v⟩ := hex
        rcases List.mem_cons.mp he0m with rfl | hm
        · rw [he0v] at hp
          exact absurd (isPrefixOf_self v) hp
        · obtain ⟨e, hfind, hev⟩ := ih v hv hrest ⟨e0, hm, he0v⟩
          refine ⟨e, ?_, hev⟩
          unfold findMatchEntry at hfind ⊢
          have hstep : List.find? (fun (e : RevEntry) => e.value.isPrefixOf v) (y :: rest)
              = List.find? (fun (e : RevEntry) => e.value.isPrefixOf v) rest :=
            List.find?_cons_of_neg rest hp
          rw [hstep]
          exact hfind

/-- The reverse index restricted to value `v` is exactly the vault's
`v`-entries, in insertion order. -/
theorem revEntries_filter_v (config : List (String × String)) (v : String)
    (hv : 0 < v.length) :
    (reverseEntries config).filter (fun e => e.value = v.data)
      = (config.filter (fun p => p.2 = v)).map (fun p => ⟨p.2.data, p.1⟩) := by
  unfold reverseEntries
  rw [sortByLenDesc_filter]
  induction config with
  | nil => rfl
  | cons p ps ih =>
      by_cases hpv : p.2 = v
      · have hlen : 0 < p.2.length := by rw [hpv]; exact hv
        rw [List.filter_cons_of_pos (by simpa using hlen), List.map_cons,
          List.filter_cons_of_pos (by simp [hpv]),
          List.filter_cons_of_pos (by simp [hpv]), List.map_cons, ih]
      · by_cases hlen : 0 < p.2.length
        · rw [List.filter_cons_of_pos (by simpa using hlen), List.map_cons,
            List.filter_cons_of_neg (by simp [strData_ne hpv]),
            List.filter_cons_of_neg (by simp [hpv])]
          exact ih
        · rw [List.filter_cons_of_neg (by simpa using hlen),
            List.filter_cons_of_neg (by simp [hpv])]
          exact ih

/-- `find?` on a keyed projection of the reverse index. -/
theorem find?_proj_map (v : List Char) (g : RevEntry → List Char) :
    ∀ (l : List RevEntry),
    ((l.map (fun e => (e.value, g e))).find? (fun p => p.1 = v)).map (fun p => p.2)
      = (l.find? (fun e => e.value = v)).map g := by
  intro l
  induction l with
  | nil => rfl
  | cons e es ih =>
      by_cases he : e.value = v
      · rw [List.map_cons]
        have h1 : List.find? (fun p => p.1 = v) ((e.value, g e) :: es.map (fun e => (e.value, g e)))
            = some (e.value, g e) :=
          List.find?_cons_of_pos _ (by simp [he])
        have h2 : List.find? (fun e => e.value = v) (e :: es) = some e :=
          List.find?_cons_of_pos _ (by simp [he])
        rw [h1, h2]
        rfl
      · rw [List.map_cons]
        have h1 : List.find? (fun p => p.1 = v) ((e.value, g e) :: es.map (fun e => (e.value, g e)))
            = List.find? (fun p => p.1 = v) (es.map (fun e => (e.value, g e))) :=
          List.find?_cons_of_neg _ (by simp [he])
        have h2 : List.find? (fun e => e.value = v) (e :: es)
            = List.find? (fun e => e.value = v) es :=
          List.find?_cons_of_neg _ (by simp [he])
        rw [h1, h2]
        exact ih

/-- C3 (amended): when several distinct placeholders share the same
non-empty value `v`, `scrub v` yields the placeholder form of the
*latest*-inserted of them — the reverse lookup is a JS `Map` built
from an entry list, so the later duplicate key overwrites the earlier
one — provided the encoding matchers do not match inside the produced
placeholder text.  (The claim's "earlier wins" is refuted by the
counterexample.) -/
theorem C3_latest_duplicate_wins (config : List (String × String)) (v n2 : String)
    (hv : 0 < v.length)
    (hlast : (config.reverse.find? (fun e => e.2 = v)).map Prod.fst = some n2)
    (henc : ∀ ee ∈ encodedEntries config,
      replaceAllLit ee.ci ee.pattern ee.placeholder (placeholderForm n2).data
        = (placeholderForm n2).data) :
    scrub config v = placeholderForm n2 := by
  obtain ⟨q, hq, hq1⟩ := Option.map_eq_some'.mp hlast
  have hqv : q.2 = v := by simpa using List.find?_some hq
  have hqmem : q ∈ config := List.mem_reverse.mp (List.mem_of_find?_eq_some hq)
  have hqfilter : q ∈ config.filter (fun p => p.2 = v) :=
    List.mem_filter.mpr ⟨hqmem, by simp [hqv]⟩
  have hrevmem : (⟨q.2.data, q.1⟩ : RevEntry) ∈ reverseEntries config := by
    have hmem2 : (⟨q.2.data, q.1⟩ : RevEntry) ∈
        (reverseEntries config).filter (fun e => e.value = v.data) := by
      rw [revEntries_filter_v config v hv]
      exact List.mem_map_of_mem _ hqfilter
    exact (List.mem_filter.mp hmem2).1
  have hnonempty : reverseEntries config ≠ [] := List.ne_nil_of_mem hrevmem
  have hvdata : v.data ≠ [] := by
    intro h0
    have hlen0 : v.length = 0 := by
      show v.data.length = 0
      rw [h0]
      rfl
    omega
  obtain ⟨e, hfind, hev⟩ := findMatchEntry_sorted (reverseEntries config) v.data
    hvdata
    (by unfold reverseEntries; exact sortByLenDesc_sorted _)
    ⟨⟨q.2.data, q.1⟩, hrevmem, by simp [hqv]⟩
  have hlk : lookupRepl config v.data = (placeholderForm n2).data := by
    unfold lookupRepl jsMapGet reverseLookupPairs
    rw [← List.map_reverse]
    rw [find?_proj_map v.data (fun e => (placeholderForm e.placeholder).data)]
    rw [find?_eq_head_filter]
    rw [List.filter_reverse]
    rw [revEntries_filter_v config v hv]
    rw [← List.map_reverse, List.head?_map]
    have hconf : (config.filter (fun p => p.2 = v)).reverse.head? = some q := by
      rw [← List.filter_reverse, ← find?_eq_head_filter]
      exact hq
    rw [hconf]
    simp [hq1]
  unfold scrub
  rw [if_neg (by simpa [List.isEmpty_iff] using hnonempty)]
  unfold scrubChars
  rw [scrubScan_head_match _ _ e v.data hvdata hfind hev, hlk,
    foldl_replace_id _ _ henc]

/-- C3 witness: the two-entry duplicate vault of the counterexample —
the later placeholder `B` wins. -/
theorem C3_latest_duplicate_wins_witness :
    scrub [("A", "dup"), ("B", "dup")] "dup" = placeholderForm "B" :=
  C3_latest_duplicate_wins [("A", "dup"), ("B", "dup")] "dup" "B"
    (by decide) (by decide) (by decide)

theorem prefix_append_cases {α : Type} : ∀ (u w t : List α),
    w <+: u ++ t → w <+: u ∨ u <+: w := by
  intro u
  induction u with
  | nil => intro w t _; exact Or.inr List.nil_prefix
  | cons x u' ih =>
      intro w t h
      cases w with
      | nil => exact Or.inl List.nil_prefix
      | cons a w' =>
          rw [List.cons_append, List.cons_prefix_cons] at h
          obtain ⟨rfl, h'⟩ := h
          rcases ih w' t h' with h2 | h2
          · exact Or.inl (List.cons_prefix_cons.mpr ⟨rfl, h2⟩)
          · exact Or.inr (List.cons_prefix_cons.mpr ⟨rfl, h2⟩)

theorem infix_cons_elim {α : Type} {w : List α} {x : α} {l : List α}
    (h : w <:+: x :: l) : w <+: x :: l ∨ w <:+: l := by
  obtain ⟨a, b, hab⟩ := h
  cases a with
  | nil => exact Or.inl ⟨b, by simpa using hab⟩
  | cons y a' =>
      rw [List.cons_append, List.cons_append] at hab
      injection hab with _ h2
      exact Or.inr ⟨a', b, h2⟩

theorem infix_append_elim {α : Type} : ∀ (u : List α) (w t : List α),
    (∀ u₂, u₂ ≠ [] → u₂ <:+ u → ¬ w <+: u₂ ++ t) →
    w <:+: u ++ t → w <:+: t := by
  intro u
  induction u with
  | nil => intro w t _ h; simpa using h
  | cons x u' ih =>
      intro w t hno h
      rw [List.cons_append] at h
      rcases infix_cons_elim h with h2 | h2
      · exact absurd (by simpa using h2)
          (hno (x :: u') (by simp) (List.suffix_refl _))
      · exact ih w t
          (fun u₂ hne hsuf => hno u₂ hne (hsuf.trans (List.suffix_cons x u')))
          h2

theorem suffix_concat_form {α : Type} (u₂ r : List α) (x : α)
    (h : u₂ <:+ r ++ [x]) (hne : u₂ ≠ []) : ∃ u₃, u₂ = u₃ ++ [x] := by
  rcases List.eq_nil_or_concat u₂ with rfl | ⟨u₃, y, hy2⟩
  · exact absurd rfl hne
  · rw [List.concat_eq_append] at hy2
    subst hy2
    obtain ⟨a, ha⟩ := h
    have h2 : (a ++ u₃) ++ [y] = r ++ [x] := by rw [← ha, List.append_assoc]
    have h3 := congrArg List.getLast? h2
    rw [List.getLast?_concat, List.getLast?_concat] at h3
    injection h3 with h4
    exact ⟨u₃, by rw [h4]⟩


theorem scrubScanF_zero (es : List RevEntry) (lk : List Char → List Char)
    (s : List Char) : scrubScanF es lk 0 s = s := by
  cases s <;> rfl

theorem scrubScan_prefix_reflect (es : List RevEntry) (lk : List Char → List Char)
    (Hrepl : ∀ e ∈ es, ∃ r : List Char, lk e.value = '{' :: r ++ ['}']) :
    ∀ (fuel : Nat) (s w : List Char), s.length ≤ fuel → w ≠ [] →
    '{' ∉ w → w <+: scrubScanF es lk fuel s → w <+: s := by
  intro fuel
  induction fuel with
  | zero =>
      intro s w _ _ _ h
      rwa [scrubScanF_zero] at h
  | succ n ih =>
      intro s w hlen hw hbr h
      cases s with
      | nil =>
          rw [scrubScanF_nil] at h
          rw [List.prefix_nil] at h
          exact absurd h hw
      | cons c cs =>
          cases hfind : findMatchEntry es (c :: cs) with
          | some e =>
              simp only [scrubScanF, hfind] at h
              have hemem : e ∈ es := by
                unfold findMatchEntry at hfind
                exact List.mem_of_find?_eq_some hfind
              obtain ⟨r, hr⟩ := Hrepl e hemem
              rw [hr] at h
              cases w with
              | nil => exact absurd rfl hw
              | cons a w' =>
                  simp only [List.cons_append] at h
                  rw [List.cons_prefix_cons] at h
                  obtain ⟨rfl, -⟩ := h
                  exact absurd (List.mem_cons_self _ _) hbr
          | none =>
              simp only [scrubScanF, hfind] at h
              cases w with
              | nil => exact absurd rfl hw
              | cons a w' =>
                  rw [List.cons_prefix_cons] at h
                  obtain ⟨rfl, h'⟩ := h
                  cases w' with
                  | nil => exact List.cons_prefix_cons.mpr ⟨rfl, List.nil_prefix⟩
                  | cons b w'' =>
                      have : (b :: w'') <+: cs :=
                        ih cs (b :: w'') (by simpa using hlen) (by simp)
                          (fun hm => hbr (List.mem_cons_of_mem _ hm)) h'
                      exact List.cons_prefix_cons.mpr ⟨rfl, this⟩


theorem scrubScan_no_value_infix (es : List RevEntry) (lk : List Char → List Char)
    (Hne : ∀ e ∈ es, e.value ≠ [])
    (Hrepl : ∀ e ∈ es, ∃ r : List Char, lk e.value = '{' :: r ++ ['}'])
    (Hni : ∀ e0 ∈ es, ∀ e ∈ es, ¬ (e0.value <:+: lk e.value))
    (Hbr : ∀ e ∈ es, '{' ∉ e.value ∧ '}' ∉ e.value) :
    ∀ (fuel : Nat) (s : List Char), s.length ≤ fuel →
    ∀ e0 ∈ es, ¬ (e0.value <:+: scrubScanF es lk fuel s) := by
  intro fuel
  induction fuel with
  | zero =>
      intro s hlen e0 he0 hocc
      rw [scrubScanF_zero] at hocc
      have hse : s = [] := List.eq_nil_of_length_eq_zero (Nat.le_zero.mp hlen)
      subst hse
      exact Hne e0 he0 (by simpa using hocc)
  | succ n ih =>
      intro s hlen e0 he0 hocc
      cases s with
      | nil =>
          rw [scrubScanF_nil] at hocc
          exact Hne e0 he0 (by simpa using hocc)
      | cons c cs =>
          cases hfind : findMatchEntry es (c :: cs) with
          | some e =>
              simp only [scrubScanF, hfind] at hocc
              have hemem : e ∈ es := by
                unfold findMatchEntry at hfind
                exact List.mem_of_find?_eq_some hfind
              obtain ⟨r, hr⟩ := Hrepl e hemem
              have hX : e0.value <:+:
                  scrubScanF es lk n (cs.drop (e.value.length - 1)) := by
                refine infix_append_elim (lk e.value) _ _ ?_ hocc
                intro u₂ hne2 hsuf hpre
                rw [hr] at hsuf
                obtain ⟨u₃, rfl⟩ := suffix_concat_form u₂ ('{' :: r) '}' hsuf hne2
                rcases prefix_append_cases (u₃ ++ ['}']) e0.value _ hpre with h2 | h2
                · have hinf : e0.value <:+: lk e.value := by
                    rw [hr]
                    exact h2.isInfix.trans hsuf.isInfix
                  exact Hni e0 he0 e hemem hinf
                · exact absurd (h2.subset (by simp)) (Hbr e0 he0).2
              refine ih _ ?_ e0 he0 hX
              have hd := List.length_drop (e.value.length - 1) cs
              simp only [List.length_cons] at hlen
              omega
          | none =>
              rcases infix_cons_elim (by simpa only [scrubScanF, hfind] using hocc)
                  with h2 | h2
              · have h2' : e0.value <+: scrubScanF es lk (n + 1) (c :: cs) := by
                  simp only [scrubScanF, hfind]
                  exact h2
                have hA := scrubScan_prefix_reflect es lk Hrepl (n + 1) (c :: cs)
                  e0.value hlen (Hne e0 he0) (Hbr e0 he0).1 h2'
                unfold findMatchEntry at hfind
                have hnone := List.find?_eq_none.mp hfind e0 he0
                exact hnone (List.isPrefixOf_iff_prefix.mpr hA)
              · exact ih cs (by simpa using hlen) e0 he0 h2

theorem scrubScan_id_of_no_occurrence (es : List RevEntry) (lk : List Char → List Char) :
    ∀ (fuel : Nat) (s : List Char), s.length ≤ fuel →
    (∀ e ∈ es, ¬ (e.value <:+: s)) → scrubScanF es lk fuel s = s := by
  intro fuel
  induction fuel with
  | zero => intro s _ _; exact scrubScanF_zero es lk s
  | succ n ih =>
      intro s hlen hno
      cases s with
      | nil => exact scrubScanF_nil es lk _
      | cons c cs =>
          cases hfind : findMatchEntry es (c :: cs) with
          | some e =>
              have hemem : e ∈ es := by
                unfold findMatchEntry at hfind
                exact List.mem_of_find?_eq_some hfind
              have hpre : e.value <+: c :: cs := by
                unfold findMatchEntry at hfind
                have hptrue := List.find?_some hfind
                exact List.isPrefixOf_iff_prefix.mp hptrue
              exact absurd hpre.isInfix (hno e hemem)
          | none =>
              simp only [scrubScanF, hfind]
              rw [ih cs (by simpa using hlen)
                (fun e he hocc => hno e he (hocc.trans (List.suffix_cons c cs).isInfix))]



theorem mem_reverseEntries_orig {e : RevEntry} {config : List (String × String)}
    (h : e ∈ reverseEntries config) :
    ∃ p ∈ config, e = ⟨p.2.data, p.1⟩ ∧ 0 < p.2.length := by
  unfold reverseEntries at h
  rw [mem_sortByLenDesc] at h
  obtain ⟨p, hp, rfl⟩ := List.mem_map.mp h
  obtain ⟨hpc, hlen⟩ := List.mem_filter.mp hp
  exact ⟨p, hpc, rfl, by simpa using hlen⟩

theorem flatMap_eq_nil_of_forall {α β : Type} (f : α → List β) :
    ∀ (l : List α), (∀ a ∈ l, f a = []) → l.flatMap f = [] := by
  intro l
  induction l with
  | nil => intro _; rfl
  | cons x xs ih =>
      intro h
      rw [List.flatMap_cons, h x (List.mem_cons_self _ _), List.nil_append]
      exact ih (fun a ha => h a (List.mem_cons_of_mem _ ha))

theorem encodedEntries_eq_nil {config : List (String × String)}
    (hshort : ∀ p ∈ config, p.2.length < 8) :
    encodedEntries config = [] := by
  unfold encodedEntries
  apply flatMap_eq_nil_of_forall
  intro e he
  obtain ⟨p, hpc, rfl, -⟩ := mem_reverseEntries_orig he
  have : p.2.data.length < 8 := hshort p hpc
  simp only [if_pos this]

theorem placeholderForm_data (n : String) :
    (placeholderForm n).data = '{' :: ('{' :: n.data ++ ['}']) ++ ['}'] := by
  show (lbrace ++ lbrace ++ n ++ rbrace ++ rbrace).data = _
  rw [String.data_append, String.data_append, String.data_append, String.data_append]
  show ['{'] ++ ['{'] ++ n.data ++ ['}'] ++ ['}'] = _
  simp

theorem lookupRepl_shape {config : List (String × String)} {e : RevEntry}
    (h : e ∈ reverseEntries config) :
    ∃ e' ∈ reverseEntries config,
      lookupRepl config e.value = (placeholderForm e'.placeholder).data := by
  unfold lookupRepl jsMapGet
  have hmem : (e.value, (placeholderForm e.placeholder).data) ∈
      (reverseLookupPairs config).reverse := by
    rw [List.mem_reverse]
    exact List.mem_map_of_mem _ h
  have hsome : ((reverseLookupPairs config).reverse.find?
      (fun p => p.1 = e.value)).isSome = true := by
    rw [List.find?_isSome]
    exact ⟨_, hmem, by simp⟩
  obtain ⟨pair, hpair⟩ := Option.isSome_iff_exists.mp hsome
  have hpmem : pair ∈ (reverseLookupPairs config).reverse :=
    List.mem_of_find?_eq_some hpair
  rw [List.mem_reverse] at hpmem
  obtain ⟨e', he', rfl⟩ := List.mem_map.mp hpmem
  exact ⟨e', he', by rw [hpair]; rfl⟩


/-- C8 (amended): scrub is idempotent for vaults whose values are
shorter than 8 characters (so no encoding matchers arise), contain no
brace characters, and never occur as a substring of any placeholder
form of the vault — the literal pass then leaves no value occurrence
in its output, so a second scrub is the identity on it.  (The
counterexample vault, whose value contains braces, breaks
idempotence.) -/
theorem C8_scrub_idempotent (config : List (String × String))
    (hshort : ∀ p ∈ config, p.2.length < 8)
    (hbr : ∀ p ∈ config, '{' ∉ p.2.data ∧ '}' ∉ p.2.data)
    (hni : ∀ p ∈ config, ∀ p' ∈ config, p.2 ≠ "" →
      ¬ (p.2.data <:+: (placeholderForm p'.1).data))
    (t : String) :
    scrub config (scrub config t) = scrub config t := by
  by_cases hempty : (reverseEntries config).isEmpty
  · simp only [scrub, if_pos hempty]
  · have Hne : ∀ e ∈ reverseEntries config, e.value ≠ [] := by
      intro e he
      obtain ⟨p, -, rfl, hlen⟩ := mem_reverseEntries_orig he
      intro h0
      have h0' : p.2.data = [] := h0
      have hz : p.2.length = 0 := by
        show p.2.data.length = 0
        rw [h0']
        rfl
      omega
    have Hrepl : ∀ e ∈ reverseEntries config, ∃ r : List Char,
        lookupRepl config e.value = '{' :: r ++ ['}'] := by
      intro e he
      obtain ⟨e', -, heq⟩ := lookupRepl_shape he
      exact ⟨'{' :: e'.placeholder.data ++ ['}'], by rw [heq, placeholderForm_data]⟩
    have Hni : ∀ e0 ∈ reverseEntries config, ∀ e ∈ reverseEntries config,
        ¬ (e0.value <:+: lookupRepl config e.value) := by
      intro e0 he0 e he
      obtain ⟨e', he', heq⟩ := lookupRepl_shape he
      obtain ⟨p0, hp0, rfl, hlen0⟩ := mem_reverseEntries_orig he0
      obtain ⟨p', hp', rfl, -⟩ := mem_reverseEntries_orig he'
      rw [heq]
      refine hni p0 hp0 p' hp' ?_
      intro hs
      rw [hs] at hlen0
      simp at hlen0
    have Hbr : ∀ e ∈ reverseEntries config, '{' ∉ e.value ∧ '}' ∉ e.value := by
      intro e he
      obtain ⟨p, hpc, rfl, -⟩ := mem_reverseEntries_orig he
      exact hbr p hpc
    have hencnil := encodedEntries_eq_nil hshort
    have hscrub_eq : ∀ (u : String), scrub config u =
        String.mk (scrubScan (reverseEntries config) (lookupRepl config) u.data) := by
      intro u
      simp only [scrub, if_neg hempty, scrubChars, hencnil, List.foldl_nil]
    rw [hscrub_eq t, hscrub_eq _]
    have hBapplied := scrubScan_no_value_infix (reverseEntries config)
      (lookupRepl config) Hne Hrepl Hni Hbr t.data.length t.data (le_refl _)
    have hC := scrubScan_id_of_no_occurrence (reverseEntries config)
      (lookupRepl config)
      (String.mk (scrubScan (reverseEntries config) (lookupRepl config) t.data)).data.length
      (String.mk (scrubScan (reverseEntries config) (lookupRepl config) t.data)).data
      (le_refl _)
      (fun e he hocc => hBapplied e he (by exact hocc))
    unfold scrubScan at hC ⊢
    rw [hC]
/-- C8 witness: a concrete short braceless vault. -/
theorem C8_scrub_idempotent_witness :
    scrub [("API_KEY", "sk-tes")] (scrub [("API_KEY", "sk-tes")] "x sk-tes y") =
      scrub [("API_KEY", "sk-tes")] "x sk-tes y" :=
  C8_scrub_idempotent [("API_KEY", "sk-tes")] (by decide) (by decide) (by decide) "x sk-tes y"

theorem objGet_map_replace_ne {α : Type} {k k' : String} (hk : k' ≠ k) (v : α) :
    ∀ (o : List (String × α)),
    objGet (o.map (fun p => if p.1 = k then (k, v) else p)) k' = objGet o k' := by
  intro o
  induction o with
  | nil => rfl
  | cons p ps ih =>
      by_cases hp : p.1 = k
      · simp only [List.map_cons, if_pos hp]
        unfold objGet at ih ⊢
        rw [List.find?_cons_of_neg _ (by simp [Ne.symm hk]),
          List.find?_cons_of_neg _ (by simp [hp, Ne.symm hk])]
        exact ih
      · simp only [List.map_cons, if_neg hp]
        unfold objGet at ih ⊢
        by_cases hpk : p.1 = k'
        · rw [List.find?_cons_of_pos _ (by simp [hpk]),
            List.find?_cons_of_pos _ (by simp [hpk])]
        · rw [List.find?_cons_of_neg _ (by simp [hpk]),
            List.find?_cons_of_neg _ (by simp [hpk])]
          exact ih

theorem objGet_append_single_ne {α : Type} {k k' : String} (hk : k' ≠ k) (v : α) :
    ∀ (o : List (String × α)), objGet (o ++ [(k, v)]) k' = objGet o k' := by
  intro o
  induction o with
  | nil =>
      unfold objGet
      rw [List.nil_append, List.find?_cons_of_neg _ (by simp [Ne.symm hk])]
  | cons p ps ih =>
      unfold objGet at ih ⊢
      by_cases hpk : p.1 = k'
      · rw [List.cons_append, List.find?_cons_of_pos _ (by simp [hpk]),
          List.find?_cons_of_pos _ (by simp [hpk])]
      · rw [List.cons_append, List.find?_cons_of_neg _ (by simp [hpk]),
          List.find?_cons_of_neg _ (by simp [hpk])]
        exact ih

theorem objGet_objSet_ne {α : Type} {k k' : String} (hk : k' ≠ k) (v : α)
    (o : List (String × α)) : objGet (objSet o k v) k' = objGet o k' := by
  unfold objSet
  split
  · exact objGet_map_replace_ne hk v o
  · exact objGet_append_single_ne hk v o

theorem objGet_objSet_self {α : Type} (k : String) (v : α) :
    ∀ (o : List (String × α)), objGet (objSet o k v) k = some v := by
  intro o
  unfold objSet
  by_cases hany : o.any (fun p => p.1 = k)
  · rw [if_pos hany]
    induction o with
    | nil => simp at hany
    | cons p ps ih =>
        by_cases hp : p.1 = k
        · simp only [List.map_cons, if_pos hp]
          unfold objGet
          rw [List.find?_cons_of_pos _ (by simp)]
          rfl
        · have hany' : ps.any (fun p => p.1 = k) := by
            simpa [hp] using hany
          simp only [List.map_cons, if_neg hp]
          unfold objGet at ih ⊢
          rw [List.find?_cons_of_neg _ (by simp [hp])]
          exact ih hany'
  · rw [if_neg hany]
    induction o with
    | nil =>
        unfold objGet
        rw [List.nil_append, List.find?_cons_of_pos _ (by simp)]
        rfl
    | cons p ps ih =>
        have hp : ¬ p.1 = k := by
          intro h
          exact hany (by simp [List.any_cons, h])
        have hany' : ¬ ps.any (fun p => p.1 = k) := by
          intro h
          exact hany (by simp [List.any_cons, h])
        unfold objGet at ih ⊢
        rw [List.cons_append, List.find?_cons_of_neg _ (by simp [hp])]
        exact ih hany'


theorem objGet_mergeFold_not_mem {α : Type} (merge : α → α → α) (n : String) :
    ∀ (us : List (String × α)) (acc : List (String × α)),
    (∀ u ∈ us, u.1 ≠ n) →
    objGet (us.foldl (mergeFoldStep merge) acc) n = objGet acc n := by
  intro us
  induction us with
  | nil => intro acc _; rfl
  | cons u us' ih =>
      intro acc hne
      rw [List.foldl_cons]
      rw [ih _ (fun u' hu' => hne u' (List.mem_cons_of_mem _ hu'))]
      unfold mergeFoldStep
      split <;>
        exact objGet_objSet_ne (fun h => hne u (List.mem_cons_self _ _) h.symm) _ _

theorem objGet_mergeFold {α : Type} (merge : α → α → α) (n : String) :
    ∀ (us : List (String × α)) (acc : List (String × α)) (r0 : α),
    (us.map Prod.fst).Nodup → objGet acc n = some r0 →
    objGet (us.foldl (mergeFoldStep merge) acc) n =
      some ((objGet us n).elim r0 (merge r0)) := by
  intro us
  induction us with
  | nil =>
      intro acc r0 _ hacc
      simpa [objGet] using hacc
  | cons u us' ih =>
      intro acc r0 hnd hacc
      rw [List.map_cons, List.nodup_cons] at hnd
      obtain ⟨hnotin, hnd'⟩ := hnd
      rw [List.foldl_cons]
      by_cases hu : u.1 = n
      · have hstep : mergeFoldStep merge acc u = objSet acc u.1 (merge r0 u.2) := by
          unfold mergeFoldStep
          rw [hu, hacc]
        rw [hstep]
        have hrest : ∀ u' ∈ us', u'.1 ≠ n := by
          intro u' hu' h
          exact hnotin (hu ▸ h ▸ List.mem_map_of_mem Prod.fst hu')
        rw [objGet_mergeFold_not_mem merge n us' _ hrest, hu,
          objGet_objSet_self n (merge r0 u.2) acc]
        have hget : objGet (u :: us') n = some u.2 := by
          unfold objGet
          rw [List.find?_cons_of_pos _ (by simp [hu])]
          rfl
        rw [hget]
        rfl
      · have hstep : objGet (mergeFoldStep merge acc u) n = some r0 := by
          unfold mergeFoldStep
          split <;> rw [objGet_objSet_ne (fun h => hu h.symm) _ _] <;> exact hacc
        rw [ih _ r0 hnd' hstep]
        have hget : objGet (u :: us') n = objGet us' n := by
          unfold objGet
          rw [List.find?_cons_of_neg _ (by simp [hu])]
        rw [hget]

theorem objGet_some_mem {α : Type} {l : List (String × α)} {k : String} {x : α}
    (h : objGet l k = some x) : (k, x) ∈ l := by
  unfold objGet at h
  obtain ⟨p, hp, hp2⟩ := Option.map_eq_some'.mp h
  have hk := List.find?_some hp
  have hmem := List.mem_of_find?_eq_some hp
  have : p = (k, x) := by
    cases p
    simp only at hp2
    simp at hk
    simp [hk, hp2]
  exact this ▸ hmem

theorem matchesAny_compilePatterns (deny : Option (List String)) (s : String) :
    matchesAny s (compilePatterns deny)
      = ((deny.getD []).filterMap tryCompileRegex).any (fun re => re.test s) := by
  cases deny with
  | none => rfl
  | some l =>
      unfold compilePatterns
      by_cases hl : l.isEmpty
      · rw [List.isEmpty_iff] at hl
        subst hl
        rfl
      · simp only [if_neg hl]
        by_cases hc : (l.filterMap tryCompileRegex).isEmpty
        · simp only [if_pos hc]
          rw [List.isEmpty_iff] at hc
          simp [matchesAny, hc]
        · simp only [if_neg hc]
          simp [matchesAny, hc]

theorem objGet_map_val {α β : Type} (g : α → β) :
    ∀ (l : List (String × α)) (k : String),
    objGet (l.map (fun t => (t.1, g t.2))) k = (objGet l k).map g := by
  intro l k
  induction l with
  | nil => rfl
  | cons p ps ih =>
      by_cases hp : p.1 = k
      · unfold objGet
        rw [List.map_cons]
        rw [List.find?_cons_of_pos _ (by simp [hp]),
          List.find?_cons_of_pos _ (by simp [hp])]
        rfl
      · unfold objGet at ih ⊢
        rw [List.map_cons]
        rw [List.find?_cons_of_neg _ (by simp [hp]),
          List.find?_cons_of_neg _ (by simp [hp])]
        exact ih

theorem objGet_of_mem_nodup {α : Type} {k : String} {x : α} :
    ∀ {l : List (String × α)}, (k, x) ∈ l → (l.map Prod.fst).Nodup →
    objGet l k = some x := by
  intro l
  induction l with
  | nil => intro h _; simp at h
  | cons p ps ih =>
      intro hmem hnd
      rw [List.map_cons, List.nodup_cons] at hnd
      obtain ⟨hnotin, hnd'⟩ := hnd
      rcases List.mem_cons.mp hmem with rfl | hmem'
      · unfold objGet
        rw [List.find?_cons_of_pos _ (by simp)]
        rfl
      · have hp : ¬ p.1 = k := by
          intro h
          have hk : k ∈ ps.map Prod.fst := List.mem_map_of_mem Prod.fst hmem'
          exact hnotin (h ▸ hk)
        unfold objGet at ih ⊢
        rw [List.find?_cons_of_neg _ (by simp [hp])]
        exact ih hmem' hnd'

theorem evalParamRules_some_blocked (tool : String) (bm : Option String)
    (params : List (String × JVal)) :
    ∀ (l : List (String × CompiledParamRules)) (res : GatekeeperResult),
    evalParamRules tool bm params l = some res → res.allowed = false := by
  intro l
  induction l with
  | nil => intro res h; exact absurd h (by simp [evalParamRules])
  | cons q rest ih =>
      intro res h
      obtain ⟨qn, qpr⟩ := q
      cases hlv : lookupParamValue params qn with
      | none =>
          rw [evalParamRules, hlv] at h
          exact ih res h
      | some v =>
          rw [evalParamRules, hlv] at h
          simp only at h
          by_cases hdm : matchesAny (valueStr v) qpr.deny
          · rw [if_pos hdm] at h
            injection h with h2
            rw [← h2]
          · rw [if_neg hdm] at h
            by_cases hag : allowGateBlocks (valueStr v) qpr.allow
            · rw [if_pos hag] at h
              injection h with h2
              rw [← h2]
            · rw [if_neg hag] at h
              exact ih res h

theorem evalParamRules_none_nodeny (tool : String) (bm : Option String)
    (params : List (String × JVal)) :
    ∀ (l : List (String × CompiledParamRules)),
    evalParamRules tool bm params l = none →
    ∀ pr ∈ l, ∀ v, lookupParamValue params pr.1 = some v →
    matchesAny (valueStr v) pr.2.deny = false := by
  intro l
  induction l with
  | nil => intro _ pr hpr; simp at hpr
  | cons q rest ih =>
      intro h pr hpr v hv
      obtain ⟨qn, qpr⟩ := q
      cases hlv : lookupParamValue params qn with
      | none =>
          rw [evalParamRules, hlv] at h
          rcases List.mem_cons.mp hpr with rfl | hm
          · rw [hlv] at hv
            exact absurd hv (by simp)
          · exact ih h pr hm v hv
      | some vq =>
          rw [evalParamRules, hlv] at h
          simp only at h
          by_cases hdm : matchesAny (valueStr vq) qpr.deny
          · rw [if_pos hdm] at h
            exact absurd h (by simp)
          · rw [if_neg hdm] at h
            by_cases hag : allowGateBlocks (valueStr vq) qpr.allow
            · rw [if_pos hag] at h
              exact absurd h (by simp)
            · rw [if_neg hag] at h
              rcases List.mem_cons.mp hpr with rfl | hm
              · rw [hlv] at hv
                injection hv with hv2
                subst hv2
                exact Bool.not_eq_true _ ▸ (by simpa using hdm)
              · exact ih h pr hm v hv


theorem checkRules_deny_block (gk : Gatekeeper) (ts : List Int) (tool : String)
    (params : List (String × JVal)) (now : Int) (rs : CompiledToolRuleSet)
    (hres : gk.resolveRuleSet (normalizeToolName tool) = some rs)
    (hm : matchesAny (String.mk (stringify (.obj params))) rs.deny = true) :
    (gk.checkRules ts tool params now).1.allowed = false := by
  simp only [Gatekeeper.checkRules, hres, hm, if_true]

theorem checkRules_allowed_eval_none (gk : Gatekeeper) (ts : List Int)
    (tool : String) (params : List (String × JVal)) (now : Int)
    (rs : CompiledToolRuleSet) (prs : List (String × CompiledParamRules))
    (hres : gk.resolveRuleSet (normalizeToolName tool) = some rs)
    (hpr : rs.paramRules = some prs)
    (hall : (gk.checkRules ts tool params now).1.allowed = true) :
    evalParamRules tool rs.blockMessage params prs = none := by
  simp only [Gatekeeper.checkRules, hres, hpr] at hall
  split at hall
  · exact absurd hall (by simp)
  · split at hall
    · exact absurd hall (by simp)
    · cases hev : evalParamRules tool rs.blockMessage params prs with
      | none => rfl
      | some res =>
          rw [hev] at hall
          simp only at hall
          have := evalParamRules_some_blocked tool rs.blockMessage params prs res hev
          rw [this] at hall
          exact absurd hall (by simp)

theorem check_allowed_checkRules (gk : Gatekeeper) (ts : List Int) (tool : String)
    (params : List (String × JVal)) (now : Int)
    (hall : (gk.check ts tool params now).1.allowed = true) :
    ∃ ts', (gk.checkRules ts' tool params now).1.allowed = true := by
  unfold Gatekeeper.check at hall
  cases hcb : gk.circuitBreaker with
  | none =>
      rw [hcb] at hall
      exact ⟨ts, hall⟩
  | some cb =>
      rw [hcb] at hall
      simp only at hall
      split at hall
      · exact absurd hall (by simp)
      · exact ⟨_, hall⟩


/-- C2 (amended): merging is monotone for *deny*-pattern rejections on
tools whose rule set is registered directly under the normalized tool
name: if a deny pattern of the default rule set matches the serialized
params string, or a parameter deny pattern matches the parameter's
value, then the call is still rejected under
`deepMergeToolRules(D, U)` for every user rule set `U` (JS objects
have unique keys, whence the `Nodup` hypotheses).  The original
claim's full blocked-set superset fails — the counterexample shows a
user allow list reopening a call blocked by the default allow gate. -/
theorem C2_deny_blocks_preserved_under_merge
    (D U : List (String × ToolRuleSet)) (defaults : Option ToolRuleSet)
    (breaker : Option CircuitBreakerConfig) (ts : List Int) (now : Int)
    (tool : String) (params : List (String × JVal)) (rD : ToolRuleSet)
    (hUk : (U.map Prod.fst).Nodup)
    (hD : objGet D (normalizeToolName tool) = some rD)
    (hprD : ((rD.paramRules.getD []).map Prod.fst).Nodup)
    (hUpr : ∀ e ∈ U, ((e.2.paramRules.getD []).map Prod.fst).Nodup)
    (hblock :
      matchesAny (String.mk (stringify (.obj params))) (compilePatterns rD.deny) = true
      ∨ ∃ pr ∈ rD.paramRules.getD [],
          (lookupParamValue params pr.1).map
            (fun v => matchesAny (valueStr v) (compilePatterns pr.2.deny)) = some true) :
    ((Gatekeeper.ofRules
        { defaults := defaults, tools := deepMergeToolRules D (some U) }
        breaker).check ts tool params now).1.allowed = false := by
  set gkM := Gatekeeper.ofRules
    { defaults := defaults, tools := deepMergeToolRules D (some U) } breaker with hgkM
  by_contra hna
  have hall : (gkM.check ts tool params now).1.allowed = true := by
    revert hna
    cases (gkM.check ts tool params now).1.allowed <;> simp
  obtain ⟨ts', hallR⟩ := check_allowed_checkRules gkM ts tool params now hall
  set n := normalizeToolName tool with hn
  set rM := (objGet U n).elim rD (mergeToolRule rD) with hrM
  have hmerged : objGet (deepMergeToolRules D (some U)) n = some rM := by
    unfold deepMergeToolRules
    exact objGet_mergeFold mergeToolRule n U D rD hUk hD
  have hres : gkM.resolveRuleSet n = some (compileRuleSet rM) := by
    unfold Gatekeeper.resolveRuleSet
    have hct : objGet gkM.compiledTools n = some (compileRuleSet rM) := by
      show objGet ((deepMergeToolRules D (some U)).map
        (fun t => (t.1, compileRuleSet t.2))) n = _
      rw [objGet_map_val, hmerged]
      rfl
    rw [hct]
  rcases hblock with hb | ⟨pr, hmem, hval⟩
  · have hmA : matchesAny (String.mk (stringify (.obj params)))
        (compilePatterns rM.deny) = true := by
      rw [matchesAny_compilePatterns] at hb ⊢
      cases hU : objGet U n with
      | none =>
          rw [hrM, hU]
          exact hb
      | some u =>
          rw [hrM, hU]
          have hADne : rD.deny.getD [] ≠ [] := by
            intro h0
            rw [h0] at hb
            simp at hb
          have hlen' : ((rD.deny.getD []) ++ (u.deny.getD [])).length > 0 := by
            have := List.length_pos.mpr hADne
            rw [List.length_append]
            omega
          show (((mergeToolRule rD u).deny.getD []).filterMap tryCompileRegex).any _ = true
          simp only [mergeToolRule]
          rw [if_pos hlen']
          simp only [Option.getD_some]
          rw [List.filterMap_append, List.any_append, hb]
          rfl
    have hblocked := checkRules_deny_block gkM ts' tool params now
      (compileRuleSet rM) hres hmA
    rw [hallR] at hblocked
    exact absurd hblocked (by simp)
  · obtain ⟨v, hv, hmat⟩ := Option.map_eq_some'.mp hval
    cases hU : objGet U n with
    | none =>
        have hrMd : rM = rD := by rw [hrM, hU]; rfl
        cases hpD : rD.paramRules with
        | none =>
            rw [hpD] at hmem
            simp at hmem
        | some prsD =>
            rw [hpD] at hmem
            simp only [Option.getD_some] at hmem
            have hprs : (compileRuleSet rM).paramRules = some (prsD.map (fun pr =>
                (pr.1, { allow := compilePatterns pr.2.allow
                         deny := compilePatterns pr.2.deny : CompiledParamRules }))) := by
              show rM.paramRules.map _ = _
              rw [hrMd, hpD]
              rfl
            have hevnone := checkRules_allowed_eval_none gkM ts' tool params now
              (compileRuleSet rM) _ hres hprs hallR
            have hf := evalParamRules_none_nodeny tool (compileRuleSet rM).blockMessage
              params _ hevnone
              (pr.1, { allow := compilePatterns pr.2.allow
                       deny := compilePatterns pr.2.deny : CompiledParamRules })
              (List.mem_map_of_mem _ hmem) v hv
            simp only at hf
            rw [hf] at hmat
            exact absurd hmat (by simp)
    | some u =>
        have hUmem : (n, u) ∈ U := objGet_some_mem hU
        have hunodup := hUpr (n, u) hUmem
        have hgetD : objGet (rD.paramRules.getD []) pr.1 = some pr.2 :=
          objGet_of_mem_nodup hmem hprD
        set prM2 := (objGet (u.paramRules.getD []) pr.1).elim pr.2 (mergeParamRule pr.2)
          with hprM2
        have hmergedPR : objGet ((u.paramRules.getD []).foldl
            (mergeFoldStep mergeParamRule) (rD.paramRules.getD [])) pr.1 = some prM2 :=
          objGet_mergeFold mergeParamRule pr.1 _ _ _ hunodup hgetD
        have hmemM : (pr.1, prM2) ∈ (u.paramRules.getD []).foldl
            (mergeFoldStep mergeParamRule) (rD.paramRules.getD []) :=
          objGet_some_mem hmergedPR
        have hlenM : ((u.paramRules.getD []).foldl
            (mergeFoldStep mergeParamRule) (rD.paramRules.getD [])).length > 0 :=
          List.length_pos.mpr (List.ne_nil_of_mem hmemM)
        have hrMu : rM = mergeToolRule rD u := by rw [hrM, hU]; rfl
        have hprsM : rM.paramRules = some ((u.paramRules.getD []).foldl
            (mergeFoldStep mergeParamRule) (rD.paramRules.getD [])) := by
          rw [hrMu]
          simp only [mergeToolRule]
          rw [if_pos hlenM]
        have hprs : (compileRuleSet rM).paramRules = some
            (((u.paramRules.getD []).foldl (mergeFoldStep mergeParamRule)
              (rD.paramRules.getD [])).map (fun pr =>
                (pr.1, { allow := compilePatterns pr.2.allow
                         deny := compilePatterns pr.2.deny : CompiledParamRules }))) := by
          show rM.paramRules.map _ = _
          rw [hprsM]
          rfl
        have hevnone := checkRules_allowed_eval_none gkM ts' tool params now
          (compileRuleSet rM) _ hres hprs hallR
        have hf := evalParamRules_none_nodeny tool (compileRuleSet rM).blockMessage
          params _ hevnone
          (pr.1, { allow := compilePatterns prM2.allow
                   deny := compilePatterns prM2.deny : CompiledParamRules })
          (List.mem_map_of_mem _ hmemM) v hv
        simp only at hf
        have hM2 : matchesAny (valueStr v) (compilePatterns prM2.deny) = true := by
          rw [matchesAny_compilePatterns] at hmat ⊢
          cases hupr : objGet (u.paramRules.getD []) pr.1 with
          | none =>
              rw [hprM2, hupr]
              exact hmat
          | some upr =>
              rw [hprM2, hupr]
              show (((mergeParamRule pr.2 upr).deny.getD []).filterMap tryCompileRegex).any _ = true
              simp only [mergeParamRule, Option.getD_some]
              rw [List.filterMap_append, List.any_append, hmat]
              rfl
        rw [hf] at hM2
        exact absurd hM2 (by simp)

/-- C2 witness: a concrete default rule set whose call-level deny fires
while the user rules replace the allow list. -/
theorem C2_deny_blocks_preserved_witness :
    ((Gatekeeper.ofRules
        { defaults := none
          tools := deepMergeToolRules
            [("t", { deny := some ["x"]
                     paramRules := some [("p", { deny := some ["q"] })] })]
            (some [("t", { allow := some [".*"] })]) }
        none).check [] "t" [("p", .str "xq")] 0).1.allowed = false :=
  C2_deny_blocks_preserved_under_merge
    [("t", { deny := some ["x"]
             paramRules := some [("p", { deny := some ["q"] })] })]
    [("t", { allow := some [".*"] })] none none [] 0 "t" [("p", .str "xq")]
    { deny := some ["x"], paramRules := some [("p", { deny := some ["q"] })] }
    (by decide) (by decide) (by decide) (by decide) (Or.inl (by decide))

end Aegis
